import Mathlib

/-!
Verification of the rtbkit augmentation dispatcher (`core/router/augmentation_loop.cc`)
and its compact-sequence helper (`compact_vector.h`).

The embedding is shallow: the dispatcher's per-handler mutations become a step
function on an explicit `LoopState`; entries are stored in an indexed store so
that callback invocations (`onFinished`) can be counted per entry; machine
integers (`int` counters) become `Int`; operations that throw become `Except`
or explicit error flags.  Wall-clock dates become `Nat` timestamps supplied by
the environment.  String comparison mirrors `std::string::operator<`
(lexicographic on the character sequence).
-/

namespace CompactVec

/-- `std::numeric_limits<uint32_t>::max()`, the `max_size()` of
`compact_vector` with the default `Size = uint32_t`. -/
def maxSizeCV : Nat := 4294967295

/-- Shallow state of a `compact_vector<Data, N>`: the element sequence by value,
the current capacity, and whether storage is inline (`is_internal_`). -/
structure CV (α : Type) (N : Nat) where
  elems : List α
  cap : Nat
  internal : Bool
deriving DecidableEq

/-- `compact_vector::init(first, last, to_alloc)`: chooses inline storage when
`to_alloc <= Internal`, otherwise allocates `to_alloc` externally, then copies
the elements.  The source throws when `to_alloc > max_size()`; the safety check
inside the copy loop fires when more elements than `to_alloc` are copied (both
branches are unreachable from the call sites modelled here). -/
def cvInit {α : Type} (N : Nat) (src : List α) (ta : Nat) : Except String (CV α N) :=
  if ta > maxSizeCV then .error "compact_vector cannot grow that big"
  else if src.length > ta then .error "internal logic error in init"
  else if ta > N then .ok ⟨src, ta, false⟩
  else .ok ⟨src, N, true⟩

/-- `compact_vector::reserve`: no-op when capacity suffices, otherwise builds a
fresh vector of capacity `min (max (capacity*2) new_capacity) max_size()` and
swaps it in. -/
def cvReserve {α : Type} {N : Nat} (v : CV α N) (k : Nat) : Except String (CV α N) :=
  if v.cap ≥ k then .ok v
  else cvInit N v.elems (min (max (v.cap * 2) k) maxSizeCV)

/-- Element sequence after `start_insert`'s shift loop: positions at or above
`idx + n` receive the element `n` slots below; the loop runs downwards so every
read sees the pre-shift contents. -/
def shiftUp {α : Type} [Inhabited α] (l : List α) (idx n : Nat) : List α :=
  (List.range l.length).map (fun i => if idx + n ≤ i then l.getD (i - n) default else l.getD i default)

/-- `std::fill(result, result + n, x)` over positions `idx ≤ i < idx + n`. -/
def fillRange {α : Type} [Inhabited α] (l : List α) (idx n : Nat) (x : α) : List α :=
  (List.range l.length).map (fun i => if idx ≤ i ∧ i < idx + n then x else l.getD i default)

/-- `compact_vector::start_insert(pos, n)`: bounds check (`Safe`), growth via
`reserve` when `size + n > capacity`, default-construction of `n` new slots at
the end, then the downward shift loop. -/
def cvStartInsert {α : Type} [Inhabited α] {N : Nat} (v : CV α N) (idx n : Nat) :
    Except String (CV α N) :=
  if n = 0 then .ok v
  else if idx > v.elems.length then .error "compact_vector insert: invalid index"
  else do
    let v1 ← if v.elems.length + n > v.cap then cvReserve v (v.elems.length + n) else .ok v
    .ok { v1 with elems := shiftUp (v1.elems ++ List.replicate n (default : α)) idx n }

/-- `compact_vector::insert(pos, n, x)` (single-element `insert(pos, x)` calls
it with `n = 1`): `start_insert` followed by the fill. -/
def cvInsert {α : Type} [Inhabited α] {N : Nat} (v : CV α N) (idx : Nat) (x : α) :
    Except String (CV α N) := do
  let v1 ← cvStartInsert v idx 1
  .ok { v1 with elems := fillRange v1.elems idx 1 x }

/-- `std::copy(src, src + k, l + idx)`: overwrite `k` positions starting at `idx`. -/
def copyAt {α : Type} (l : List α) (idx : Nat) (src : List α) : List α :=
  l.take idx ++ src ++ l.drop (idx + src.length)

/-- Range insert at `end()` as performed inside `erase`'s inline-migration
branch: `start_insert(end, k)` followed by `std::copy`. -/
def cvAppendRange {α : Type} [Inhabited α] {N : Nat} (v : CV α N) (tail : List α) :
    Except String (CV α N) :=
  if tail.isEmpty then .ok v
  else do
    let v1 ← cvStartInsert v v.elems.length tail.length
    .ok { v1 with elems := copyAt v1.elems v.elems.length tail }

/-- `compact_vector::erase(first, last)` with `Safe` checks.  When the
post-erase size fits inline and storage is external, the container migrates
back to inline storage by rebuilding `[begin, first)` and appending
`[last, end)`; otherwise elements are copied down and the tail destroyed. -/
def cvErase {α : Type} [Inhabited α] {N : Nat} (v : CV α N) (fst lst : Nat) :
    Except String (CV α N) :=
  if fst > lst then .error "erase: last before first"
  else if lst > v.elems.length then .error "erase: iterators not ours"
  else if lst - fst = 0 then .ok v
  else
    let newSize := v.elems.length - (lst - fst)
    if ¬ v.internal ∧ newSize ≤ N then do
      let base ← cvInit N (v.elems.take fst) newSize
      cvAppendRange base (v.elems.drop lst)
    else
      .ok { v with elems := v.elems.take fst ++ v.elems.drop lst }

/-- Example vector: a full inline `compact_vector<Nat, 2>`, so that a growing
insert forces the inline-to-external transition and the erase migrates back. -/
def exCV : CV Nat 2 := ⟨[10, 20], 2, true⟩

/-- Value equality of two compact vectors, mirroring the `operator ==` overload
(equal sizes and elementwise-equal contents, representation ignored). -/
def cvEqv {α : Type} {N : Nat} (v w : CV α N) : Prop :=
  v.elems = w.elems

/-- Well-formedness of the representation: the size fits the capacity, inline
storage has capacity `N`, external storage has capacity above `N` and within
`max_size()`. -/
def WFcv {α : Type} {N : Nat} (v : CV α N) : Prop :=
  v.elems.length ≤ v.cap ∧ (if v.internal then v.cap = N else N < v.cap ∧ v.cap ≤ maxSizeCV)

instance {α : Type} {N : Nat} (v : CV α N) : Decidable (WFcv v) := by
  unfold WFcv; infer_instance

end CompactVec

namespace AugLoop

/-- `std::string::operator<`: lexicographic comparison of the character
sequences (executable; Lean's own `String.decidableLT` does not reduce in the
kernel). -/
def nameLt (a b : String) : Bool := decide (a.data < b.data)

/-- `std::set<std::string>::insert`: ordered insertion without duplicates. -/
def insertName (x : String) : List String → List String
  | [] => [x]
  | y :: ys =>
    if x = y then y :: ys
    else if nameLt x y then x :: y :: ys
    else y :: insertName x ys

/-- Sorted insertion used to model `std::sort` over the snapshot entries. -/
def insertSorted (x : String) : List String → List String
  | [] => [x]
  | y :: ys => if nameLt x y then x :: y :: ys else y :: insertSorted x ys

/-- Insertion sort by name, modelling the `std::sort` call in
`updateAllAugmentors` (directory keys are distinct, so any comparison sort
yields this result). -/
def sortNames (l : List String) : List String := l.foldr insertSorted []

/-- Boolean strict sortedness by name, used as an executable hypothesis. -/
def sortedNamesB : List String → Bool
  | [] => true
  | [_] => true
  | a :: b :: rest => nameLt a b && sortedNamesB (b :: rest)

/-- One iteration bound of the merge loop of `AugmentationLoop::augment`: the
loop advances at least one of the two cursors per round, so the sum of the
remaining lengths strictly decreases; carrying it as explicit fuel keeps the
definition structurally recursive (hence kernel-evaluable).  Branches follow
the source: on equal heads the name is kept (outstanding), on `a < b` the
needed name is unavailable, on `b < a` the snapshot name is not required (the
final `else throw "logic error"` branch is unreachable for a total order). -/
def mergeGo : Nat → List String → List String → List String
  | 0, _, _ => []
  | _ + 1, [], _ => []
  | _ + 1, _ :: _, [] => []
  | fuel + 1, a :: as, b :: bs =>
    if a = b then a :: mergeGo fuel as bs
    else if nameLt a b then mergeGo fuel as (b :: bs)
    else mergeGo fuel (a :: as) bs

/-- The merge loop of `AugmentationLoop::augment`: one linear pass over the two
name-sorted inputs, keeping exactly the names present in both. -/
def mergeOutstanding (l1 l2 : List String) : List String :=
  mergeGo (l1.length + l2.length) l1 l2

/-- One potential bidder: its agent identifier and the augmentor names listed
in its configuration (`config.augmentations[k].name`). -/
structure PotentialBidder where
  agent : String
  augNames : List String
deriving DecidableEq

/-- The set-union loop of `augment`: every augmentor name configured on any
bidder of any potential group, accumulated through `std::set` insertion. -/
def neededAugmentors (pg : List (List PotentialBidder)) : List String :=
  pg.foldl
    (fun acc g => g.foldl
      (fun acc2 b => b.augNames.foldl (fun acc3 n => insertName n acc3) acc2) acc) []

/-- `AugmentorInstanceInfo`: a worker instance with its in-flight accounting.
Modelled from the spec: the struct itself lives in `augmentation_loop.h`
(not in the sources); per the spec an instance is `{addr, maxInFlight,
numInFlight}` and a freshly configured instance has no requests in flight. -/
structure AugmentorInstanceInfo where
  addr : String
  maxInFlight : Int
  numInFlight : Int
deriving DecidableEq

/-- `AugmentorInfo`: a named augmentor and its instance sequence. -/
structure AugmentorInfo where
  name : String
  instances : List AugmentorInstanceInfo
deriving DecidableEq

/-- An augmentor response payload, decoded; the JSON decoding itself is an
external collaborator, so results of `AugmentationList::fromJson` are supplied
by the environment and `mergeWith` is modelled as list concatenation. -/
abbrev AugmentationList := List String

/-- `std::numeric_limits<int>::max()`, the initial `minInFlights` sentinel of
`pickInstance`. -/
def intMax : Int := 2147483647

/-- The selection loop of `AugmentationLoop::pickInstance`: a single pass that
skips instances at or above the current minimum or at their in-flight cap and
remembers the position of the best candidate.  `pos` is the index of the head
of the remaining list within the full instance sequence. -/
def pickIdxAux : List AugmentorInstanceInfo → Int → Option Nat → Nat → Option Nat
  | [], _, best, _ => best
  | inst :: rest, minIF, best, pos =>
    if inst.numInFlight ≥ minIF then pickIdxAux rest minIF best (pos + 1)
    else if inst.numInFlight ≥ inst.maxInFlight then pickIdxAux rest minIF best (pos + 1)
    else pickIdxAux rest inst.numInFlight (some pos) (pos + 1)

/-- Index of the instance `pickInstance` selects, if any. -/
def pickInstanceIdx (l : List AugmentorInstanceInfo) : Option Nat :=
  pickIdxAux l intMax none 0

/-- Increment `numInFlight` of the instance at position `i`
(`instance->numInFlight++`). -/
def incAt : List AugmentorInstanceInfo → Nat → List AugmentorInstanceInfo
  | [], _ => []
  | inst :: rest, 0 => { inst with numInFlight := inst.numInFlight + 1 } :: rest
  | inst :: rest, Nat.succ k => inst :: incAt rest k

/-- `AugmentationLoop::pickInstance`: select per `pickIdxAux`, increment the
chosen instance, return the choice. -/
def pickInstance (a : AugmentorInfo) : Option Nat × AugmentorInfo :=
  match pickInstanceIdx a.instances with
  | none => (none, a)
  | some i => (some i, { a with instances := incAt a.instances i })

/-- `findInstance(addr)` decrement of `doResponse`.  Modelled from the spec:
`findInstance` is declared in the missing header; it locates the instance of
this augmentor whose address matches, and `doResponse` decrements its counter
unconditionally. -/
def decFirstAddr : List AugmentorInstanceInfo → String → List AugmentorInstanceInfo
  | [], _ => []
  | inst :: rest, a =>
    if inst.addr = a then { inst with numInFlight := inst.numInFlight - 1 } :: rest
    else inst :: decFirstAddr rest a

/-- The instance-removal loop of `doDisconnection`: erase the first instance
whose address matches, then `break`. -/
def removeFirstAddr : List AugmentorInstanceInfo → String → List AugmentorInstanceInfo
  | [], _ => []
  | inst :: rest, a => if inst.addr = a then rest else inst :: removeFirstAddr rest a

/-- Directory lookup (`augmentors.count` / `augmentors[name]` when present):
the worker directory is a name-keyed map, embedded as a list with distinct
names. -/
def dirFind? : List AugmentorInfo → String → Option AugmentorInfo
  | [], _ => none
  | a :: rest, n => if a.name = n then some a else dirFind? rest n

/-- In-place update of the directory record with the given name. -/
def dirMap (n : String) (f : AugmentorInfo → AugmentorInfo) :
    List AugmentorInfo → List AugmentorInfo
  | [] => []
  | a :: rest => if a.name = n then f a :: rest else a :: dirMap n f rest

/-- `augmentors[name] = info` where `operator[]` inserts the key when absent. -/
def dirSet : List AugmentorInfo → String → AugmentorInfo → List AugmentorInfo
  | [], _, a => [a]
  | b :: rest, n, a => if b.name = n then a :: rest else b :: dirSet rest n a

/-- `updateAllAugmentors`: rebuild the published snapshot as the name-sorted
sequence of directory records (only the names matter to `augment`). -/
def snapshotOf (dir : List AugmentorInfo) : List String :=
  sortNames (dir.map (fun a => a.name))

/-- The per-augment bookkeeping record (`Entry` plus the parts of the shared
`AugmentationInfo` the dispatcher reads and writes).  `fired` logs every
`onFinished` invocation together with the augmentation map passed to it, so
that at-most-once firing is observable. -/
structure EntryRec where
  infoId : String
  augs : List (String × AugmentationList)
  outstanding : List String
  timeout : Nat
  fired : List (List (String × AugmentationList))
deriving DecidableEq

/-- `entry.info.auction.augmentations[augmentor].mergeWith(list)`: `operator[]`
default-constructs an absent key, and merging is modelled as concatenation. -/
def mergeAug : List (String × AugmentationList) → String → AugmentationList →
    List (String × AugmentationList)
  | [], n, l => [(n, l)]
  | (k, v) :: rest, n, l =>
    if k = n then (k, v ++ l) :: rest else (k, v) :: mergeAug rest n l

/-- `entry->outstanding.erase(augmentor)` on the sorted name set. -/
def eraseName : List String → String → List String
  | [], _ => []
  | x :: rest, n => if x = n then rest else x :: eraseName rest n

/-- `augmenting.find(id)` on the Deadline Index (id-keyed entries). -/
def findTok : List (String × Nat) → String → Option Nat
  | [], _ => none
  | p :: rest, i => if p.1 = i then some p.2 else findTok rest i

/-- `augmenting.count(id)`. -/
def hasId (l : List (String × Nat)) (i : String) : Bool := (findTok l i).isSome

/-- `augmenting.erase(it)` for the entry found under this id. -/
def removeId : List (String × Nat) → String → List (String × Nat)
  | [], _ => []
  | p :: rest, i => if p.1 = i then rest else p :: removeId rest i

/-- The whole dispatcher state visible to the claims: the worker directory,
the published snapshot, the inbox queue, the Deadline Index (auction id to
entry token), the entry store, the idle flag, and the counters the claims
mention.  `nullDeref` records that a handler dereferenced an absent directory
record (undefined behaviour in the source). -/
structure LoopState where
  directory : List AugmentorInfo
  snapshot : List String
  inbox : List Nat
  augmenting : List (String × Nat)
  entries : List EntryRec
  idle : Bool
  nullDeref : Bool
  duplicateAuction : Nat
  unknownCount : Nat
  parseExceptions : List String
  noAvailable : List String
deriving DecidableEq

/-- The dispatcher's initial state (constructor: empty directory, empty
snapshot, idle). -/
def initState : LoopState :=
  { directory := [], snapshot := [], inbox := [], augmenting := [], entries := []
  , idle := true, nullDeref := false, duplicateAuction := 0, unknownCount := 0
  , parseExceptions := [], noAvailable := [] }

/-- `AugmentationLoop::augment(info, timeout, onFinished)`: build the needed
set, intersect it with the published snapshot by the linear merge, then either
fire `onFinished` synchronously (empty intersection) or push the entry onto
the inbox.  The fresh entry's token is its index in the entry store. -/
def augmentStep (s : LoopState) (pg : List (List PotentialBidder)) (id : String)
    (timeout : Nat) : LoopState :=
  let out := mergeOutstanding (neededAugmentors pg) s.snapshot
  let e : EntryRec :=
    { infoId := id, augs := [], outstanding := out, timeout := timeout
    , fired := if out.isEmpty then [[]] else [] }
  if out.isEmpty then { s with entries := s.entries ++ [e] }
  else { s with entries := s.entries ++ [e], inbox := s.inbox ++ [s.entries.length] }

/-- The dispatch loop of `doAugmentation`: for each outstanding name, look the
augmentor up (`*augmentors[*it]` dereferences a null record when the name is
absent — flagged as `nullDeref`), pick an instance, and either record
`noAvailableInstances` or increment the chosen instance. -/
def dispatchAll (dir : List AugmentorInfo) (names : List String)
    (noAv : List String) (nd : Bool) : List AugmentorInfo × List String × Bool :=
  match names with
  | [] => (dir, noAv, nd)
  | n :: rest =>
    match dirFind? dir n with
    | none => dispatchAll dir rest noAv true
    | some a =>
      match pickInstanceIdx a.instances with
      | none => dispatchAll dir rest (noAv ++ [n]) nd
      | some i =>
        dispatchAll (dirMap n (fun a2 => { a2 with instances := incAt a2.instances i }) dir)
          rest noAv nd

/-- `AugmentationLoop::doAugmentation` on the head of the inbox: drop a
duplicate auction id (counting `duplicateAuction`), otherwise insert into the
Deadline Index, dispatch every outstanding name, and clear `idle`. -/
def doAugmentationStep (s : LoopState) : LoopState :=
  match s.inbox with
  | [] => s
  | tok :: rest =>
    match s.entries[tok]? with
    | none => { s with inbox := rest, nullDeref := true }
    | some e =>
      if hasId s.augmenting e.infoId then
        { s with inbox := rest, duplicateAuction := s.duplicateAuction + 1 }
      else
        let d := dispatchAll s.directory e.outstanding s.noAvailable s.nullDeref
        { s with inbox := rest
               , augmenting := s.augmenting ++ [(e.infoId, tok)]
               , directory := d.1, noAvailable := d.2.1, nullDeref := d.2.2
               , idle := false }

/-- Timeout of the entry behind a token (entries in the index always exist). -/
def expTimeout (es : List EntryRec) (t : Nat) : Nat :=
  match es[t]? with
  | some e => e.timeout
  | none => 0

/-- The expiry predicate of `checkExpiries`: the entry's deadline passed. -/
def entryExpired (es : List EntryRec) (now : Nat) (p : String × Nat) : Bool :=
  expTimeout es p.2 ≤ now

/-- Fire `onFinished` for the entry behind a token, logging the augmentation
map the callback receives. -/
def fireTok (es : List EntryRec) (t : Nat) : List EntryRec :=
  match es[t]? with
  | some e => es.set t { e with fired := e.fired ++ [e.augs] }
  | none => es

/-- `AugmentationLoop::checkExpiries` at time `now`: expire (and fire) every
indexed entry whose deadline passed — the `earliest <= now` pre-test only
short-circuits the scan — then raise `idle` when the index drained. -/
def checkExpiriesStep (s : LoopState) (now : Nat) : LoopState :=
  let rest := s.augmenting.filter (fun p => ! entryExpired s.entries now p)
  let es2 := (s.augmenting.filter (entryExpired s.entries now)).foldl
    (fun es p => fireTok es p.2) s.entries
  let s2 := { s with augmenting := rest, entries := es2 }
  if rest.isEmpty && ! s.idle then { s2 with idle := true } else s2

/-- Payload classification of `doResponse`: an empty or literal-null payload
skips decoding, a decode failure records `responseParsingExceptions` and
falls back to the empty list, a successful decode is kept. -/
def respList (payload : String) (decoded : Option AugmentationList)
    (pex : List String) (augName : String) : AugmentationList × List String :=
  if payload = "" ∨ payload = "null" then ([], pex)
  else
    match decoded with
    | some l => (l, pex)
    | none => ([], pex ++ [augName])

/-- The in-flight decrement of `doResponse`: when the named augmentor is
still present, its instance at `addr` (if any) is decremented. -/
def respDecDir (dir : List AugmentorInfo) (augName addr : String) :
    List AugmentorInfo :=
  match dirFind? dir augName with
  | some _ =>
    dirMap augName (fun a => { a with instances := decFirstAddr a.instances addr }) dir
  | none => dir

/-- `AugmentationLoop::doResponse` on a well-formed RESPONSE frame (address,
auction id, augmentor name, raw payload, and the environment-supplied decode
result): classify the payload, decrement the instance, then either count an
unknown auction id or merge the list and, when the outstanding set drains,
fire `onFinished` and remove the entry from the index. -/
def doResponseStep (s : LoopState) (addr sid augName payload : String)
    (decoded : Option AugmentationList) : LoopState :=
  let pr := respList payload decoded s.parseExceptions augName
  let dir1 := respDecDir s.directory augName addr
  let s1 := { s with directory := dir1, parseExceptions := pr.2 }
  match findTok s.augmenting sid with
  | none => { s1 with unknownCount := s1.unknownCount + 1 }
  | some tok =>
    match s.entries[tok]? with
    | none => { s1 with nullDeref := true }
    | some e =>
      let augs2 := mergeAug e.augs augName pr.1
      let outs2 := eraseName e.outstanding augName
      if outs2.isEmpty then
        { s1 with
          entries := s.entries.set tok
            { e with augs := augs2, outstanding := outs2, fired := e.fired ++ [augs2] }
        , augmenting := removeId s.augmenting sid }
      else
        { s1 with entries := s.entries.set tok { e with augs := augs2, outstanding := outs2 } }

/-- The per-record loop of `doDisconnection(addr, aug)`: a record is skipped
(`continue`) unless its name is empty or equal to `aug` — the source tests
`augmentor.name.empty()`, not the `aug` argument; a considered record loses
its first instance at `addr`, and its name is pushed onto `toErase` when its
instance list is then empty.  Returns the processed records and `toErase`. -/
def discProcess (addr aug : String) : List AugmentorInfo → List AugmentorInfo × List String
  | [] => ([], [])
  | a :: rest =>
    let r := discProcess addr aug rest
    if a.name ≠ "" ∧ a.name ≠ aug then (a :: r.1, r.2)
    else
      let a2 : AugmentorInfo := { a with instances := removeFirstAddr a.instances addr }
      if a2.instances.isEmpty then (a2 :: r.1, a2.name :: r.2)
      else (a2 :: r.1, r.2)

/-- The body of `doDisconnection(addr, aug)` over the directory: process every
record, then erase the collected names (directory keys are unique, so erasure
is a filter); the snapshot is republished exactly when `toErase` is
non-empty.  Returns the new directory and that flag. -/
def doDisconnectionDir (dir : List AugmentorInfo) (addr aug : String) :
    List AugmentorInfo × Bool :=
  let pr := discProcess addr aug dir
  (pr.1.filter (fun a => decide (a.name ∉ pr.2)), ! pr.2.isEmpty)

/-- `doDisconnection(addr)` as triggered by the disconnections queue: the
name filter defaults to the empty string. -/
def doDisconnectionStep (s : LoopState) (addr : String) : LoopState :=
  let d := doDisconnectionDir s.directory addr ""
  if d.2 then { s with directory := d.1, snapshot := snapshotOf d.1 }
  else { s with directory := d.1 }

/-- Directory effect of `doConfig`: run the replace-style disconnection, look
the record up (`augmentors[name]` creates a fresh empty record when absent),
and append the fresh instance. -/
def configApply (dir : List AugmentorInfo) (addr name : String) (mif : Int) :
    List AugmentorInfo :=
  let dir1 := (doDisconnectionDir dir addr name).1
  let a := (dirFind? dir1 name).getD { name := name, instances := [] }
  dirSet dir1 name { a with instances := a.instances ++ [⟨addr, mif, 0⟩] }

/-- `AugmentationLoop::doConfig` after frame decoding: reject an empty name,
default a negative `maxInFlight` to 3000, run `doDisconnection(addr, name)` so
a reconnecting instance replaces its registration, append the fresh instance
(no requests in flight), and republish the snapshot.  The frame-level read of
the optional field is modelled separately by `doConfigParse`; this step takes
the post-parse values (the absent field arrives as `-1`, mirroring the
`int maxInFlight = -1` initialisation). -/
def doConfigStep (s : LoopState) (addr name : String) (mifRaw : Int) : LoopState :=
  if name = "" then s
  else
    let dir2 := configApply s.directory addr name (if mifRaw < 0 then 3000 else mifRaw)
    { s with directory := dir2, snapshot := snapshotOf dir2 }

/-- Digit-accumulation loop of the decimal parse. -/
def stoiNatGo : List Char → Nat → Option Nat
  | [], acc => some acc
  | c :: cs, acc => if c.isDigit then stoiNatGo cs (acc * 10 + (c.toNat - 48)) else none

/-- `std::stoi`, modelled as far as the claims need it: a decimal integer
parse (optional leading minus) that fails on non-numeric input. -/
def stoiModel (str : String) : Option Int :=
  match str.data with
  | [] => none
  | '-' :: cs =>
    match cs with
    | [] => none
    | _ => (stoiNatGo cs 0).map (fun n => -(n : Int))
  | cs => (stoiNatGo cs 0).map (fun n => (n : Int))

/-- The frame-level part of `doConfig`: size checks (4 or 5 elements), field
extraction, and the read of the optional `maxInFlight` — faithfully from
`message[5]`, which is one past the end of a five-element frame; that
out-of-bounds `operator[]` is undefined behaviour and is embedded as an
error. -/
def doConfigParse (m : List String) : Except String (String × String × Int) :=
  if m.length < 4 then .error "config message has wrong size"
  else if m.length > 5 then .error "config message has wrong size"
  else
    let addr := m.getD 0 ""
    let version := m.getD 2 ""
    let name := m.getD 3 ""
    let mif0 : Except String Int :=
      if m.length ≥ 5 then
        match m[5]? with
        | none => .error "out-of-bounds read of message at index 5"
        | some str =>
          match stoiModel str with
          | some k => .ok k
          | none => .error "stoi"
      else .ok (-1)
    match mif0 with
    | .error e => .error e
    | .ok k =>
      if version ≠ "1.0" then .error "unknown version for config message"
      else if name = "" then .error "no augmentor name specified"
      else .ok (addr, name, if k < 0 then 3000 else k)

/-- What the spec pins for the optional `maxInFlight` field (design note on
the open question): the fifth element, index 4, defaulting to 3000 when absent
or negative.  Stated from the spec's words for comparison with the source's
read. -/
def specConfigMaxInFlight (m : List String) : Option Int :=
  if m.length ≥ 5 then
    match m[4]? with
    | some str =>
      match stoiModel str with
      | some k => some (if k < 0 then 3000 else k)
      | none => none
    | none => none
  else some 3000

/-- One externally triggerable handler execution.  `augment` may run on any
producer thread; the rest run on the loop thread (`drain` pops the inbox into
`doAugmentation`; `disconnect` is the one-argument form fed by the
disconnections queue; `config` and `response` carry already-decoded frames;
`expire` is the periodic `checkExpiries` at the given clock reading). -/
inductive Step where
  | augment (pg : List (List PotentialBidder)) (id : String) (timeout : Nat)
  | drain
  | response (addr sid augName payload : String) (decoded : Option AugmentationList)
  | expire (now : Nat)
  | config (addr name : String) (mifRaw : Int)
  | disconnect (addr : String)

/-- The dispatcher's transition function. -/
def step (s : LoopState) : Step → LoopState
  | .augment pg id t => augmentStep s pg id t
  | .drain => doAugmentationStep s
  | .response addr sid n p d => doResponseStep s addr sid n p d
  | .expire now => checkExpiriesStep s now
  | .config addr n m => doConfigStep s addr n m
  | .disconnect addr => doDisconnectionStep s addr

/-- Run a sequence of handler executions. -/
def run (s : LoopState) : List Step → LoopState
  | [] => s
  | a :: tr => run (step s a) tr

/-- Example bidder groups exercising `augment`: one group, one bidder, two
required augmentors. -/
def exPg : List (List PotentialBidder) := [[⟨"agent1", ["geo", "freq"]⟩]]

/-- Example dispatcher state whose published snapshot offers `freq` and `zeta`. -/
def exSnapState : LoopState := { initState with snapshot := ["freq", "zeta"] }

/-- Availability of an instance for dispatch: strictly below its in-flight cap
(`numInFlight < maxInFlight`). -/
def availI (inst : AugmentorInstanceInfo) : Prop :=
  inst.numInFlight < inst.maxInFlight

instance (inst : AugmentorInstanceInfo) : Decidable (availI inst) := by
  unfold availI; infer_instance

/-- Example augmentor record for exercising `pickInstance`: `B` and `C` tie on
the minimum in-flight count, `B` coming first. -/
def exAug : AugmentorInfo :=
  ⟨"geo", [⟨"A", 2, 1⟩, ⟨"B", 2, 0⟩, ⟨"C", 2, 0⟩]⟩

/-- The tokens currently held by the Deadline Index. -/
def augToks (s : LoopState) : List Nat := s.augmenting.map (fun p => p.2)

/-- The names present in a directory. -/
def dirNames (dir : List AugmentorInfo) : List String := dir.map (fun a => a.name)

/-- Example bidder requiring the `geo` augmentor. -/
def exBidderGeo : PotentialBidder := ⟨"b1", ["geo"]⟩

/-- Example directory holding augmentor `geo` with a single instance. -/
def exDirGeo : List AugmentorInfo := [⟨"geo", [⟨"workerA", 10, 0⟩]⟩]

/-- Trace exhibiting a duplicate dispatch of auction id `1`: the first entry
is drained into the index, the second is dropped as a duplicate, and expiry
then fires the first entry only; afterwards the system is quiescent. -/
def c1Trace : List Step :=
  [.config "A" "geo" 10, .augment [[exBidderGeo]] "1" 5, .drain,
   .augment [[exBidderGeo]] "1" 5, .drain, .expire 10]

/-- Trace exhibiting the unguarded decrement of `doResponse`: a RESPONSE
frame for an instance that has no request in flight. -/
def c2Trace : List Step :=
  [.config "A" "geo" 10, .response "A" "1" "geo" "" none]

/-- State just before draining a duplicate dispatch of auction id `1`. -/
def c5State : LoopState :=
  run initState
    [.config "A" "geo" 10, .augment [[exBidderGeo]] "1" 5, .drain,
     .augment [[exBidderGeo]] "1" 5]

/-- Strict name-sortedness, the order shared by `std::set` iteration and the
published snapshot. -/
def SortedN (l : List String) : Prop :=
  List.Pairwise (fun a b => nameLt a b = true) l

/-- The state invariant of the dispatcher, maintained by every handler:
queued tokens are live, unfired, have their outstanding names registered, and
appear at most once across inbox and Deadline Index; indexed tokens are live
and unfired; every entry has fired at most once; the published snapshot only
names registered augmentors; directory records are properly named and respect
their in-flight caps; and no handler has dereferenced an absent augmentor
record. -/
structure Inv (s : LoopState) : Prop where
  inboxLt : ∀ t ∈ s.inbox, t < s.entries.length
  inboxFired : ∀ t ∈ s.inbox, ∀ e, s.entries[t]? = some e → e.fired = []
  inboxOut : ∀ t ∈ s.inbox, ∀ e, s.entries[t]? = some e →
    ∀ n ∈ e.outstanding, n ∈ dirNames s.directory
  inboxNodup : s.inbox.Nodup
  inboxDisj : ∀ t ∈ s.inbox, t ∉ augToks s
  augLt : ∀ t ∈ augToks s, t < s.entries.length
  augFired : ∀ t ∈ augToks s, ∀ e, s.entries[t]? = some e → e.fired = []
  augNodup : (augToks s).Nodup
  firedLe : ∀ e ∈ s.entries, e.fired.length ≤ 1
  snapSub : ∀ n ∈ s.snapshot, n ∈ dirNames s.directory
  dirNE : ∀ a ∈ s.directory, a.name ≠ ""
  dirBound : ∀ a ∈ s.directory, ∀ inst ∈ a.instances,
    inst.numInFlight ≤ inst.maxInFlight
  noDeref : s.nullDeref = false

end AugLoop

namespace AugLoop

theorem nameLt_iff (a b : String) : nameLt a b = true ↔ a < b := by
  rw [nameLt, decide_eq_true_eq, String.lt_iff_toList_lt]
  exact Iff.rfl

theorem nameLt_trans {a b c : String} (h1 : nameLt a b = true) (h2 : nameLt b c = true) :
    nameLt a c = true := by
  rw [nameLt_iff] at h1 h2 ⊢
  exact lt_trans h1 h2

theorem nameLt_irrefl (a : String) : nameLt a a = false := by
  rw [← Bool.not_eq_true, nameLt_iff]
  exact lt_irrefl a

theorem nameLt_asymm {a b : String} (h : nameLt a b = true) : nameLt b a = false := by
  rw [nameLt_iff] at h
  rw [← Bool.not_eq_true, nameLt_iff]
  exact lt_asymm h

theorem nameLt_conn {a b : String} (h1 : ¬ a = b) (h2 : ¬ nameLt a b = true) :
    nameLt b a = true := by
  rw [nameLt_iff] at h2 ⊢
  rcases lt_trichotomy a b with h | h | h
  · exact absurd h h2
  · exact absurd h h1
  · exact h

theorem nameLt_ne {a b : String} (h : nameLt a b = true) : a ≠ b := by
  intro hab
  subst hab
  rw [nameLt_irrefl] at h
  cases h

theorem mem_insertName (x y : String) (l : List String) :
    y ∈ insertName x l ↔ y = x ∨ y ∈ l := by
  induction l with
  | nil => simp [insertName]
  | cons a rest ih =>
    rw [insertName]
    split
    · next h =>
      subst h
      simp [List.mem_cons]
    · split
      · simp only [List.mem_cons]
      · simp only [List.mem_cons, ih]
        tauto

theorem sortedN_insertName (x : String) (l : List String)
    (h : SortedN l) : SortedN (insertName x l) := by
  induction l with
  | nil => simp [insertName, SortedN]
  | cons a rest ih =>
    rw [SortedN, List.pairwise_cons] at h
    obtain ⟨ha, hrest⟩ := h
    rw [insertName]
    split
    · next heq =>
      subst heq
      rw [SortedN, List.pairwise_cons]
      exact ⟨ha, hrest⟩
    · next hne =>
      split
      · next hlt =>
        rw [SortedN, List.pairwise_cons]
        refine ⟨?_, ?_⟩
        · intro b hb
          rcases List.mem_cons.mp hb with rfl | hb'
          · exact hlt
          · exact nameLt_trans hlt (ha b hb')
        · rw [List.pairwise_cons]
          exact ⟨ha, hrest⟩
      · next hnlt =>
        have hax : nameLt a x = true := nameLt_conn hne hnlt
        rw [SortedN, List.pairwise_cons]
        refine ⟨?_, ih hrest⟩
        intro b hb
        rcases (mem_insertName x b rest).mp hb with rfl | hb'
        · exact hax
        · exact ha b hb'

theorem mem_foldl_insertName (ns : List String) :
    ∀ (acc : List String) (x : String),
      x ∈ ns.foldl (fun a n => insertName n a) acc ↔ x ∈ acc ∨ x ∈ ns := by
  induction ns with
  | nil => simp
  | cons n rest ih =>
    intro acc x
    simp only [List.foldl_cons, ih, mem_insertName, List.mem_cons]
    tauto

theorem sortedN_foldl_insertName (ns : List String) :
    ∀ (acc : List String), SortedN acc →
      SortedN (ns.foldl (fun a n => insertName n a) acc) := by
  induction ns with
  | nil => intro acc h; simpa using h
  | cons n rest ih =>
    intro acc h
    exact ih _ (sortedN_insertName n acc h)

theorem mem_bidderFold (g : List PotentialBidder) :
    ∀ (acc : List String) (x : String),
      x ∈ g.foldl (fun a2 b => b.augNames.foldl (fun a3 n => insertName n a3) a2) acc ↔
        x ∈ acc ∨ ∃ b ∈ g, x ∈ b.augNames := by
  induction g with
  | nil => simp
  | cons b rest ih =>
    intro acc x
    simp only [List.foldl_cons, ih, mem_foldl_insertName, List.mem_cons]
    constructor
    · rintro ((h | h) | ⟨b2, hb2, h⟩)
      · exact Or.inl h
      · exact Or.inr ⟨b, Or.inl rfl, h⟩
      · exact Or.inr ⟨b2, Or.inr hb2, h⟩
    · rintro (h | ⟨b2, (rfl | hb2), h⟩)
      · exact Or.inl (Or.inl h)
      · exact Or.inl (Or.inr h)
      · exact Or.inr ⟨b2, hb2, h⟩

theorem sortedN_bidderFold (g : List PotentialBidder) :
    ∀ (acc : List String), SortedN acc →
      SortedN
        (g.foldl (fun a2 b => b.augNames.foldl (fun a3 n => insertName n a3) a2) acc) := by
  induction g with
  | nil => intro acc h; simpa using h
  | cons b rest ih =>
    intro acc h
    exact ih _ (sortedN_foldl_insertName b.augNames acc h)

theorem mem_neededAugmentors (pg : List (List PotentialBidder)) (x : String) :
    x ∈ neededAugmentors pg ↔ ∃ g ∈ pg, ∃ b ∈ g, x ∈ b.augNames := by
  have main : ∀ (acc : List String),
      x ∈ pg.foldl (fun acc g => g.foldl
        (fun acc2 b => b.augNames.foldl (fun acc3 n => insertName n acc3) acc2) acc) acc ↔
        x ∈ acc ∨ ∃ g ∈ pg, ∃ b ∈ g, x ∈ b.augNames := by
    induction pg with
    | nil => simp
    | cons g rest ih =>
      intro acc
      simp only [List.foldl_cons, ih, mem_bidderFold, List.mem_cons]
      constructor
      · rintro ((h | h) | ⟨g2, hg2, h⟩)
        · exact Or.inl h
        · exact Or.inr ⟨g, Or.inl rfl, h⟩
        · exact Or.inr ⟨g2, Or.inr hg2, h⟩
      · rintro (h | ⟨g2, (rfl | hg2), h⟩)
        · exact Or.inl (Or.inl h)
        · exact Or.inl (Or.inr h)
        · exact Or.inr ⟨g2, hg2, h⟩
  simpa using main []

theorem neededAugmentors_sortedN (pg : List (List PotentialBidder)) :
    SortedN (neededAugmentors pg) := by
  have main : ∀ (acc : List String), SortedN acc →
      SortedN (pg.foldl (fun acc g => g.foldl
        (fun acc2 b => b.augNames.foldl (fun acc3 n => insertName n acc3) acc2) acc) acc) := by
    induction pg with
    | nil => intro acc h; simpa using h
    | cons g rest ih =>
      intro acc h
      exact ih _ (sortedN_bidderFold g acc h)
  exact main [] (by simp [SortedN])

theorem sortedNamesB_iff (l : List String) :
    sortedNamesB l = true ↔ SortedN l := by
  induction l with
  | nil => simp [sortedNamesB, SortedN]
  | cons a rest ih =>
    cases rest with
    | nil => simp [sortedNamesB, SortedN]
    | cons b rest2 =>
      rw [sortedNamesB, Bool.and_eq_true, ih]
      constructor
      · rintro ⟨hab, hsorted⟩
        rw [SortedN, List.pairwise_cons]
        refine ⟨?_, hsorted⟩
        intro x hx
        rcases List.mem_cons.mp hx with rfl | hx'
        · exact hab
        · exact nameLt_trans hab ((List.pairwise_cons.mp hsorted).1 x hx')
      · intro h
        rw [SortedN, List.pairwise_cons] at h
        exact ⟨h.1 b (by simp), h.2⟩

theorem mergeGo_eq_filter :
    ∀ (fuel : Nat) (l1 l2 : List String), l1.length + l2.length ≤ fuel →
      SortedN l1 → SortedN l2 →
      mergeGo fuel l1 l2 = l1.filter (fun x => decide (x ∈ l2)) := by
  intro fuel
  induction fuel with
  | zero =>
    intro l1 l2 hlen _ _
    cases l1 with
    | nil => simp [mergeGo]
    | cons a as => simp at hlen
  | succ n ih =>
    intro l1 l2 hlen h1 h2
    match l1, l2 with
    | [], l2 => simp [mergeGo]
    | a :: as, [] => simp [mergeGo]
    | a :: as, b :: bs =>
      simp only [List.length_cons] at hlen
      rw [mergeGo]
      by_cases hab : a = b
      · subst hab
        rw [SortedN, List.pairwise_cons] at h1 h2
        rw [if_pos rfl]
        have heq : as.filter (fun x => decide (x ∈ a :: bs)) =
            as.filter (fun x => decide (x ∈ bs)) := by
          apply List.filter_congr
          intro x hx
          have hbx : nameLt a x = true := h1.1 x hx
          have hxb : ¬ x = a := Ne.symm (nameLt_ne hbx)
          simp [decide_eq_decide, List.mem_cons, hxb]
        rw [ih as bs (by omega) h1.2 h2.2, ← heq]
        simp
      · rw [if_neg hab]
        by_cases hlt : nameLt a b = true
        · rw [if_pos hlt]
          rw [SortedN, List.pairwise_cons] at h1
          have hnotmem : ¬ a ∈ b :: bs := by
            intro hmem
            rcases List.mem_cons.mp hmem with rfl | h
            · exact hab rfl
            · have := (List.pairwise_cons.mp h2).1 a h
              rw [nameLt_asymm hlt] at this
              cases this
          rw [ih as (b :: bs) (by simp; omega) h1.2 h2]
          rw [List.filter_cons]
          simp only [decide_eq_true_eq]
          rw [if_neg hnotmem]
        · rw [if_neg hlt]
          rw [SortedN, List.pairwise_cons] at h2
          have hba : nameLt b a = true := nameLt_conn hab hlt
          rw [ih (a :: as) bs (by simp; omega) h1 h2.2]
          apply List.filter_congr
          intro x hx
          have hbx : nameLt b x = true := by
            rw [SortedN, List.pairwise_cons] at h1
            rcases List.mem_cons.mp hx with rfl | hx'
            · exact hba
            · exact nameLt_trans hba (h1.1 x hx')
          have hxb : ¬ x = b := Ne.symm (nameLt_ne hbx)
          simp [decide_eq_decide, List.mem_cons, hxb]

theorem mergeOutstanding_eq_filter (l1 l2 : List String)
    (h1 : SortedN l1) (h2 : SortedN l2) :
    mergeOutstanding l1 l2 = l1.filter (fun x => decide (x ∈ l2)) :=
  mergeGo_eq_filter (l1.length + l2.length) l1 l2 (le_refl _) h1 h2

end AugLoop

namespace AugLoop

/-- C3: for every `augment(info, timeout, onFinished)` call, the entry's
outstanding set is the intersection of the union of the bidders' configured
augmentor names with the published snapshot's names, computed by the single
linear merge of the two sorted inputs; an empty intersection fires
`onFinished(info)` synchronously (the entry is created already fired) and
enqueues nothing, otherwise the entry goes onto the inbox. -/
theorem augment_outstanding_spec (s : LoopState) (pg : List (List PotentialBidder))
    (id : String) (t : Nat) (hsnap : sortedNamesB s.snapshot = true) :
    (mergeOutstanding (neededAugmentors pg) s.snapshot =
       (neededAugmentors pg).filter (fun x => decide (x ∈ s.snapshot)))
    ∧ (∀ x, x ∈ mergeOutstanding (neededAugmentors pg) s.snapshot ↔
        (∃ g ∈ pg, ∃ b ∈ g, x ∈ b.augNames) ∧ x ∈ s.snapshot)
    ∧ ((mergeOutstanding (neededAugmentors pg) s.snapshot).isEmpty = true →
        step s (.augment pg id t) =
          { s with entries := s.entries ++
              [⟨id, [], mergeOutstanding (neededAugmentors pg) s.snapshot, t, [[]]⟩] })
    ∧ ((mergeOutstanding (neededAugmentors pg) s.snapshot).isEmpty = false →
        step s (.augment pg id t) =
          { s with
            entries := s.entries ++
              [⟨id, [], mergeOutstanding (neededAugmentors pg) s.snapshot, t, []⟩],
            inbox := s.inbox ++ [s.entries.length] }) := by
  have hfilter : mergeOutstanding (neededAugmentors pg) s.snapshot =
      (neededAugmentors pg).filter (fun x => decide (x ∈ s.snapshot)) :=
    mergeOutstanding_eq_filter _ _ (neededAugmentors_sortedN pg)
      ((sortedNamesB_iff s.snapshot).mp hsnap)
  refine ⟨hfilter, ?_, ?_, ?_⟩
  · intro x
    rw [hfilter, List.mem_filter, mem_neededAugmentors, decide_eq_true_eq]
  · intro hempty
    simp only [step, augmentStep, hempty]
    rfl
  · intro hempty
    simp only [step, augmentStep, hempty]
    rfl

/-- Witness for `augment_outstanding_spec` at `exSnapState`/`exPg`: the merge
keeps exactly `freq` and the entry is enqueued with that outstanding set. -/
theorem augment_outstanding_spec_witness :
    (mergeOutstanding (neededAugmentors exPg) exSnapState.snapshot =
       (neededAugmentors exPg).filter (fun x => decide (x ∈ exSnapState.snapshot)))
    ∧ step exSnapState (.augment exPg "1" 5) =
        { exSnapState with
          entries := exSnapState.entries ++
            [⟨"1", [], mergeOutstanding (neededAugmentors exPg) exSnapState.snapshot, 5, []⟩],
          inbox := exSnapState.inbox ++ [exSnapState.entries.length] } :=
  ⟨(augment_outstanding_spec exSnapState exPg "1" 5 (by decide)).1,
   (augment_outstanding_spec exSnapState exPg "1" 5 (by decide)).2.2.2 (by decide)⟩

end AugLoop

namespace AugLoop

theorem append_singleton_getElem? {α : Type} (pre : List α) (a : α) (j : Nat) (x : α)
    (h : (pre ++ [a])[j]? = some x) : pre[j]? = some x ∨ (j = pre.length ∧ x = a) := by
  rcases Nat.lt_trichotomy j pre.length with hj | hj | hj
  · left
    rwa [List.getElem?_append, if_pos hj] at h
  · right
    subst hj
    rw [List.getElem?_concat_length] at h
    exact ⟨rfl, (Option.some_inj.mp h).symm⟩
  · exfalso
    have hlen : (pre ++ [a]).length ≤ j := by
      simp only [List.length_append, List.length_singleton]
      omega
    rw [List.getElem?_eq_none hlen] at h
    cases h

theorem getElem?_append_of_lt {α : Type} {pre rest : List α} {j : Nat} {x : α}
    (h : pre[j]? = some x) : (pre ++ rest)[j]? = some x := by
  have hj : j < pre.length := by
    rcases List.getElem?_eq_some.mp h with ⟨hlt, _⟩
    exact hlt
  rwa [List.getElem?_append, if_pos hj]

theorem pickIdxAux_go (rest : List AugmentorInstanceInfo) :
    ∀ (pre : List AugmentorInstanceInfo) (minIF : Int) (best : Option Nat),
    (∀ inst ∈ rest, inst.maxInFlight ≤ intMax) →
    (best = none → minIF = intMax ∧ ∀ (j : Nat) (instJ : AugmentorInstanceInfo), pre[j]? = some instJ → ¬ availI instJ) →
    (∀ b, best = some b → ∃ instB, pre[b]? = some instB ∧ availI instB ∧
        minIF = instB.numInFlight ∧
        (∀ (j : Nat) (instJ : AugmentorInstanceInfo), pre[j]? = some instJ → availI instJ → minIF ≤ instJ.numInFlight) ∧
        (∀ (j : Nat) (instJ : AugmentorInstanceInfo), j < b → pre[j]? = some instJ → availI instJ → minIF < instJ.numInFlight)) →
    ((pickIdxAux rest minIF best pre.length = none →
        ∀ (j : Nat) (instJ : AugmentorInstanceInfo), (pre ++ rest)[j]? = some instJ → ¬ availI instJ)
    ∧ (∀ i, pickIdxAux rest minIF best pre.length = some i →
        ∃ inst, (pre ++ rest)[i]? = some inst ∧ availI inst ∧
          (∀ (j : Nat) (instJ : AugmentorInstanceInfo), (pre ++ rest)[j]? = some instJ → availI instJ →
            inst.numInFlight ≤ instJ.numInFlight) ∧
          (∀ (j : Nat) (instJ : AugmentorInstanceInfo), j < i → (pre ++ rest)[j]? = some instJ → availI instJ →
            inst.numInFlight < instJ.numInFlight))) := by
  induction rest with
  | nil =>
    intro pre minIF best hmax hnone hsome
    rw [pickIdxAux]
    simp only [List.append_nil]
    constructor
    · intro hb
      exact (hnone hb).2
    · intro i hb
      obtain ⟨instB, h1, h2, h3, h4, h5⟩ := hsome i hb
      have h1len : i < pre.length := by
        rcases List.getElem?_eq_some.mp h1 with ⟨hlt, _⟩
        exact hlt
      refine ⟨instB, h1, h2, ?_, ?_⟩
      · intro j instJ hj ha
        have := h4 j instJ hj ha
        omega
      · intro j instJ hji hj ha
        have := h5 j instJ hji hj ha
        omega
  | cons inst rest2 ih =>
    intro pre minIF best hmax hnone hsome
    have hmax2 : ∀ i ∈ rest2, i.maxInFlight ≤ intMax := fun i hi => hmax i (by simp [hi])
    have hmaxI : inst.maxInFlight ≤ intMax := hmax inst (by simp)
    rw [pickIdxAux]
    by_cases hge : inst.numInFlight ≥ minIF
    · rw [if_pos hge]
      have hnone2 : best = none →
          minIF = intMax ∧ ∀ (j : Nat) (instJ : AugmentorInstanceInfo), (pre ++ [inst])[j]? = some instJ → ¬ availI instJ := by
        intro hb
        obtain ⟨hm, hall⟩ := hnone hb
        refine ⟨hm, ?_⟩
        intro j instJ hj ha
        rcases append_singleton_getElem? pre inst j instJ hj with h | ⟨rfl, rfl⟩
        · exact hall j instJ h ha
        · rw [availI] at ha
          omega
      have hsome2 : ∀ b, best = some b → ∃ instB, (pre ++ [inst])[b]? = some instB ∧
          availI instB ∧ minIF = instB.numInFlight ∧
          (∀ (j : Nat) (instJ : AugmentorInstanceInfo), (pre ++ [inst])[j]? = some instJ → availI instJ →
            minIF ≤ instJ.numInFlight) ∧
          (∀ (j : Nat) (instJ : AugmentorInstanceInfo), j < b → (pre ++ [inst])[j]? = some instJ → availI instJ →
            minIF < instJ.numInFlight) := by
        intro b hb
        obtain ⟨instB, h1, h2, h3, h4, h5⟩ := hsome b hb
        refine ⟨instB, getElem?_append_of_lt h1, h2, h3, ?_, ?_⟩
        · intro j instJ hj ha
          rcases append_singleton_getElem? pre inst j instJ hj with h | ⟨rfl, rfl⟩
          · exact h4 j instJ h ha
          · omega
        · intro j instJ hji hj ha
          rcases append_singleton_getElem? pre inst j instJ hj with h | ⟨rfl, rfl⟩
          · exact h5 j instJ hji h ha
          · have hblen : b < pre.length := by
              rcases List.getElem?_eq_some.mp h1 with ⟨hlt, _⟩
              exact hlt
            omega
      have := ih (pre ++ [inst]) minIF best hmax2 hnone2 hsome2
      simpa [List.append_assoc] using this
    · rw [if_neg hge]
      by_cases hcap : inst.numInFlight ≥ inst.maxInFlight
      · rw [if_pos hcap]
        have hnotavail : ¬ availI inst := by
          rw [availI]
          omega
        have hnone2 : best = none →
            minIF = intMax ∧ ∀ (j : Nat) (instJ : AugmentorInstanceInfo), (pre ++ [inst])[j]? = some instJ → ¬ availI instJ := by
          intro hb
          obtain ⟨hm, hall⟩ := hnone hb
          refine ⟨hm, ?_⟩
          intro j instJ hj ha
          rcases append_singleton_getElem? pre inst j instJ hj with h | ⟨rfl, rfl⟩
          · exact hall j instJ h ha
          · exact hnotavail ha
        have hsome2 : ∀ b, best = some b → ∃ instB, (pre ++ [inst])[b]? = some instB ∧
            availI instB ∧ minIF = instB.numInFlight ∧
            (∀ (j : Nat) (instJ : AugmentorInstanceInfo), (pre ++ [inst])[j]? = some instJ → availI instJ →
              minIF ≤ instJ.numInFlight) ∧
            (∀ (j : Nat) (instJ : AugmentorInstanceInfo), j < b → (pre ++ [inst])[j]? = some instJ → availI instJ →
              minIF < instJ.numInFlight) := by
          intro b hb
          obtain ⟨instB, h1, h2, h3, h4, h5⟩ := hsome b hb
          refine ⟨instB, getElem?_append_of_lt h1, h2, h3, ?_, ?_⟩
          · intro j instJ hj ha
            rcases append_singleton_getElem? pre inst j instJ hj with h | ⟨rfl, rfl⟩
            · exact h4 j instJ h ha
            · exact absurd ha hnotavail
          · intro j instJ hji hj ha
            rcases append_singleton_getElem? pre inst j instJ hj with h | ⟨rfl, rfl⟩
            · exact h5 j instJ hji h ha
            · exact absurd ha hnotavail
        have := ih (pre ++ [inst]) minIF best hmax2 hnone2 hsome2
        simpa [List.append_assoc] using this
      · rw [if_neg hcap]
        have havail : availI inst := by
          rw [availI]
          omega
        have hnone2 : (some pre.length : Option Nat) = none →
            inst.numInFlight = intMax ∧
            ∀ (j : Nat) (instJ : AugmentorInstanceInfo), (pre ++ [inst])[j]? = some instJ → ¬ availI instJ := by
          intro hb
          cases hb
        have hsome2 : ∀ b, (some pre.length : Option Nat) = some b →
            ∃ instB, (pre ++ [inst])[b]? = some instB ∧ availI instB ∧
            inst.numInFlight = instB.numInFlight ∧
            (∀ (j : Nat) (instJ : AugmentorInstanceInfo), (pre ++ [inst])[j]? = some instJ → availI instJ →
              inst.numInFlight ≤ instJ.numInFlight) ∧
            (∀ (j : Nat) (instJ : AugmentorInstanceInfo), j < b → (pre ++ [inst])[j]? = some instJ → availI instJ →
              inst.numInFlight < instJ.numInFlight) := by
          intro b hb
          have hbb : b = pre.length := (Option.some_inj.mp hb).symm
          subst hbb
          refine ⟨inst, List.getElem?_concat_length pre inst, havail, rfl, ?_, ?_⟩
          · intro j instJ hj ha
            rcases append_singleton_getElem? pre inst j instJ hj with h | ⟨rfl, rfl⟩
            · rcases hbest : best with _ | b0
              · obtain ⟨hm, hall⟩ := hnone hbest
                exact absurd ha (hall j instJ h)
              · obtain ⟨instB, h1, h2, h3, h4, h5⟩ := hsome b0 hbest
                have := h4 j instJ h ha
                omega
            · omega
          · intro j instJ hji hj ha
            have hjlen : j < pre.length := hji
            rcases append_singleton_getElem? pre inst j instJ hj with h | ⟨rfl, rfl⟩
            · rcases hbest : best with _ | b0
              · obtain ⟨hm, hall⟩ := hnone hbest
                exact absurd ha (hall j instJ h)
              · obtain ⟨instB, h1, h2, h3, h4, h5⟩ := hsome b0 hbest
                have := h4 j instJ h ha
                omega
            · omega
        have := ih (pre ++ [inst]) inst.numInFlight (some pre.length) hmax2 hnone2 hsome2
        simpa [List.append_assoc] using this

theorem incAt_eq_set (l : List AugmentorInstanceInfo) (i : Nat)
    (inst : AugmentorInstanceInfo) (h : l[i]? = some inst) :
    incAt l i = l.set i { inst with numInFlight := inst.numInFlight + 1 } := by
  induction l generalizing i with
  | nil => cases h
  | cons a rest ih =>
    cases i with
    | zero =>
      simp only [List.getElem?_cons_zero, Option.some_inj] at h
      subst h
      rfl
    | succ k =>
      simp only [List.getElem?_cons_succ] at h
      simp only [incAt, List.set]
      rw [ih k h]

/-- C4: `pickInstance` returns null exactly when no instance is below its
in-flight cap; otherwise it picks, among the available instances, the one with
strictly minimum `numInFlight` (first-encountered wins ties: every earlier
available instance is strictly larger), and increments exactly that
instance. -/
theorem pickInstance_spec (a : AugmentorInfo)
    (hmax : ∀ inst ∈ a.instances, inst.maxInFlight ≤ intMax) :
    ((pickInstance a).1 = none ↔ ∀ inst ∈ a.instances, ¬ availI inst)
    ∧ ((pickInstance a).1 = none → (pickInstance a).2 = a)
    ∧ (∀ i, (pickInstance a).1 = some i →
        (pickInstance a).2 = { a with instances := incAt a.instances i } ∧
        ∃ inst, a.instances[i]? = some inst ∧ availI inst ∧
          incAt a.instances i =
            a.instances.set i { inst with numInFlight := inst.numInFlight + 1 } ∧
          (∀ (j : Nat) (instJ : AugmentorInstanceInfo), a.instances[j]? = some instJ → availI instJ →
            inst.numInFlight ≤ instJ.numInFlight) ∧
          (∀ (j : Nat) (instJ : AugmentorInstanceInfo), j < i → a.instances[j]? = some instJ → availI instJ →
            inst.numInFlight < instJ.numInFlight)) := by
  have hgo := pickIdxAux_go a.instances [] intMax none hmax
    (fun _ => ⟨rfl, fun j instJ hj => by cases hj⟩)
    (fun b hb => by cases hb)
  simp only [List.nil_append, List.length_nil] at hgo
  have hpick : pickInstanceIdx a.instances = pickIdxAux a.instances intMax none 0 := rfl
  refine ⟨?_, ?_, ?_⟩
  · constructor
    · intro hnone inst hmem
      have hres : pickIdxAux a.instances intMax none 0 = none := by
        rw [← hpick]
        rw [pickInstance] at hnone
        rcases hcase : pickInstanceIdx a.instances with _ | i
        · rfl
        · rw [hcase] at hnone
          simp at hnone
      rcases List.mem_iff_getElem?.mp hmem with ⟨j, hj⟩
      exact hgo.1 hres j inst hj
    · intro hall
      rcases hcase : (pickInstance a).1 with _ | i
      · rfl
      · exfalso
        have hres : pickIdxAux a.instances intMax none 0 = some i := by
          rw [← hpick]
          rw [pickInstance] at hcase
          rcases hcase2 : pickInstanceIdx a.instances with _ | i2
          · rw [hcase2] at hcase
            simp at hcase
          · rw [hcase2] at hcase
            simp at hcase
            rw [hcase]
        obtain ⟨inst, h1, h2, _, _⟩ := hgo.2 i hres
        have hmem : inst ∈ a.instances := List.mem_iff_getElem?.mpr ⟨i, h1⟩
        exact hall inst hmem h2
  · intro hnone
    rw [pickInstance] at hnone ⊢
    rcases hcase : pickInstanceIdx a.instances with _ | i
    · rfl
    · rw [hcase] at hnone
      simp at hnone
  · intro i hsome
    rw [pickInstance] at hsome
    rcases hcase : pickInstanceIdx a.instances with _ | i2
    · rw [hcase] at hsome
      simp at hsome
    · rw [hcase] at hsome
      simp only at hsome
      have hii : i2 = i := by
        simpa using hsome
      subst hii
      have hres : pickIdxAux a.instances intMax none 0 = some i2 := by
        rw [← hpick]
        exact hcase
      obtain ⟨inst, h1, h2, h4, h5⟩ := hgo.2 i2 hres
      constructor
      · rw [pickInstance, hcase]
      · exact ⟨inst, h1, h2, incAt_eq_set a.instances i2 inst h1, h4, h5⟩

/-- Witness for `pickInstance_spec` at `exAug`: instance `B` (index 1, the
first of the two minimum-load available instances) is selected. -/
theorem pickInstance_spec_witness :
    (pickInstance exAug).1 = some 1
    ∧ ((pickInstance exAug).1 = none ↔ ∀ inst ∈ exAug.instances, ¬ availI inst) :=
  ⟨by decide, (pickInstance_spec exAug (by decide)).1⟩

end AugLoop

namespace CompactVec

theorem getElem?_rangeMap {β : Type} (f : Nat → β) (L n : Nat) :
    ((List.range L).map f)[n]? = if n < L then some (f n) else none := by
  rcases Nat.lt_or_ge n L with h | h
  · rw [List.getElem?_map, List.getElem?_range h, if_pos h]
    rfl
  · rw [List.getElem?_map, List.getElem?_eq_none (by simpa using h), if_neg (Nat.not_lt.mpr h)]
    rfl

theorem getD_rangeMap {β : Type} [Inhabited β] (f : Nat → β) (L n : Nat) (h : n < L) :
    ((List.range L).map f).getD n default = f n := by
  rw [List.getD_eq_getElem?_getD, getElem?_rangeMap, if_pos h]
  rfl

theorem shiftUp_length {α : Type} [Inhabited α] (l : List α) (idx n : Nat) :
    (shiftUp l idx n).length = l.length := by
  simp [shiftUp]

theorem fillRange_length {α : Type} [Inhabited α] (l : List α) (idx n : Nat) (x : α) :
    (fillRange l idx n x).length = l.length := by
  simp [fillRange]

theorem shiftUp_getD {α : Type} [Inhabited α] (l : List α) (idx n m : Nat)
    (h : m < l.length) :
    (shiftUp l idx n).getD m default =
      if idx + n ≤ m then l.getD (m - n) default else l.getD m default := by
  rw [shiftUp, getD_rangeMap _ _ _ h]

theorem getD_some {α : Type} [Inhabited α] (l : List α) (m : Nat) (h : m < l.length) :
    l[m]? = some (l.getD m default) := by
  rw [List.getD_eq_getElem?_getD, List.getElem?_eq_getElem h]
  rfl

theorem fill_shift_insert {α : Type} [Inhabited α] (l : List α) (idx : Nat) (x d : α)
    (h : idx ≤ l.length) :
    fillRange (shiftUp (l ++ [d]) idx 1) idx 1 x = l.take idx ++ x :: l.drop idx := by
  apply List.ext_getElem?
  intro m
  have hlen1 : (l ++ [d]).length = l.length + 1 := by simp
  have hslen : (shiftUp (l ++ [d]) idx 1).length = l.length + 1 := by
    rw [shiftUp_length, hlen1]
  have htake : (l.take idx).length = idx := by
    rw [List.length_take]
    omega
  rw [fillRange, getElem?_rangeMap, hslen, List.getElem?_append, htake]
  by_cases h1 : m < idx
  · rw [if_pos (by omega), if_pos h1, List.getElem?_take, if_pos h1]
    have hfill : ¬ (idx ≤ m ∧ m < idx + 1) := by omega
    rw [if_neg hfill, shiftUp_getD _ _ _ _ (by omega), if_neg (by omega)]
    have hgd : (l ++ [d]).getD m default = l.getD m default := by
      rw [List.getD_eq_getElem?_getD, List.getD_eq_getElem?_getD,
        List.getElem?_append, if_pos (by omega)]
    rw [hgd, ← getD_some l m (by omega)]
  · by_cases h2 : m = idx
    · subst h2
      rw [if_pos (by omega), if_neg h1]
      have : m - m = 0 := by omega
      rw [this, List.getElem?_cons_zero, if_pos (by omega)]
    · by_cases h3 : m < l.length + 1
      · rw [if_pos h3, if_neg h1]
        have hfill : ¬ (idx ≤ m ∧ m < idx + 1) := by omega
        rw [if_neg hfill, shiftUp_getD _ _ _ _ (by omega), if_pos (by omega)]
        have hmi : m - idx = (m - idx - 1) + 1 := by omega
        rw [hmi, List.getElem?_cons_succ, List.getElem?_drop]
        have hidx2 : idx + (m - idx - 1) = m - 1 := by omega
        rw [hidx2]
        have hgd : (l ++ [d]).getD (m - 1) default = l.getD (m - 1) default := by
          rw [List.getD_eq_getElem?_getD, List.getD_eq_getElem?_getD,
            List.getElem?_append, if_pos (by omega)]
        rw [hgd, ← getD_some l (m - 1) (by omega)]
      · rw [if_neg h3, if_neg h1]
        have hmi : m - idx = (m - idx - 1) + 1 := by omega
        rw [hmi, List.getElem?_cons_succ, List.getElem?_drop]
        rw [List.getElem?_eq_none (by omega)]

theorem shiftUp_full {α : Type} [Inhabited α] (l : List α) (idx n : Nat)
    (h : l.length ≤ idx + n) : shiftUp l idx n = l := by
  apply List.ext_getElem?
  intro m
  rw [shiftUp, getElem?_rangeMap]
  by_cases hm : m < l.length
  · rw [if_pos hm, if_neg (by omega), ← getD_some l m hm]
  · rw [if_neg hm, List.getElem?_eq_none (by omega)]

theorem cvStartInsert_one {α : Type} [Inhabited α] {N : Nat} (v : CV α N) (i : Nat)
    (hwf : WFcv v) (hi : i ≤ v.elems.length) (hs : v.elems.length + 1 ≤ maxSizeCV) :
    ∃ v1 : CV α N, cvStartInsert v i 1 = .ok v1 ∧
      v1.elems = shiftUp (v.elems ++ [(default : α)]) i 1 ∧
      v.elems.length + 1 ≤ v1.cap ∧
      (v1.internal → v1.cap = N) ∧ (¬ v1.internal → N < v1.cap ∧ v1.cap ≤ maxSizeCV) := by
  obtain ⟨hsz, hrep⟩ := hwf
  rw [cvStartInsert, if_neg (by omega), if_neg (by omega)]
  by_cases hgrow : v.elems.length + 1 > v.cap
  · rw [if_pos hgrow]
    rw [cvReserve, if_neg (by omega)]
    set ta := min (max (v.cap * 2) (v.elems.length + 1)) maxSizeCV with hta
    have hta1 : v.elems.length + 1 ≤ ta := by
      rw [hta]
      omega
    rw [cvInit, if_neg (by omega), if_neg (by omega)]
    by_cases hbig : ta > N
    · rw [if_pos hbig]
      refine ⟨_, rfl, by simp, by simpa using hta1, ?_, ?_⟩
      · intro h
        simp at h
      · intro _
        simp only
        constructor
        · omega
        · rw [hta]
          omega
    · rw [if_neg hbig]
      refine ⟨_, rfl, by simp, ?_, ?_, ?_⟩
      · simp only
        omega
      · intro _
        rfl
      · intro h
        simp at h
  · rw [if_neg hgrow]
    refine ⟨_, rfl, by simp, by simp; omega, ?_, ?_⟩
    · intro h
      split at hrep
      · exact hrep
      · simp_all
    · intro h
      split at hrep
      · simp_all
      · simpa using hrep

theorem cvInsert_spec {α : Type} [Inhabited α] {N : Nat} (v : CV α N) (i : Nat) (x : α)
    (hwf : WFcv v) (hi : i ≤ v.elems.length) (hs : v.elems.length + 1 ≤ maxSizeCV) :
    ∃ v1 : CV α N, cvInsert v i x = .ok v1 ∧
      v1.elems = v.elems.take i ++ x :: v.elems.drop i ∧ WFcv v1 := by
  obtain ⟨v1, hrun, helems, hcap, hint, hext⟩ := cvStartInsert_one v i hwf hi hs
  refine ⟨{ v1 with elems := fillRange v1.elems i 1 x }, ?_, ?_, ?_⟩
  · rw [cvInsert, hrun]
    rfl
  · simp only
    rw [helems, fill_shift_insert _ _ _ _ hi]
  · constructor
    · simp only [fillRange_length, helems, shiftUp_length, List.length_append,
        List.length_singleton]
      omega
    · simp only
      split
      · next h => exact hint h
      · next h => exact hext h

theorem except_bind_ok {α β : Type} (a : α) (f : α → Except String β) :
    (do
      let x ← (Except.ok a : Except String α)
      f x) = f a := rfl

theorem cvErase_one_spec {α : Type} [Inhabited α] {N : Nat} (v1 : CV α N) (i : Nat)
    (hwf : WFcv v1) (hi : i < v1.elems.length) :
    ∃ v2 : CV α N, cvErase v1 i (i + 1) = .ok v2 ∧
      v2.elems = v1.elems.take i ++ v1.elems.drop (i + 1) ∧ WFcv v2 := by
  obtain ⟨hsz, hrep⟩ := hwf
  rw [cvErase, if_neg (by omega), if_neg (by omega), if_neg (by omega)]
  by_cases hmig : ¬ v1.internal ∧ v1.elems.length - (i + 1 - i) ≤ N
  · rw [if_pos hmig]
    have hcapmax : v1.cap ≤ maxSizeCV := by
      rcases hmig with ⟨hext, _⟩
      split at hrep
      · simp_all
      · exact hrep.2
    have htakelen : (v1.elems.take i).length = i := by
      rw [List.length_take]
      omega
    rw [cvInit, if_neg (by omega), if_neg (by omega), if_neg (by omega)]
    set tail := v1.elems.drop (i + 1) with htail
    have htaillen : tail.length = v1.elems.length - (i + 1) := by
      rw [htail, List.length_drop]
    rw [except_bind_ok]
    by_cases hte : tail.isEmpty
    · unfold cvAppendRange
      rw [if_pos hte]
      refine ⟨_, rfl, ?_, ?_⟩
      · simp only
        have h0 : tail = [] := by
          rwa [List.isEmpty_iff] at hte
        rw [h0, List.append_nil]
      · constructor
        · simp only [htakelen]
          omega
        · simp
    · unfold cvAppendRange
      rw [if_neg hte]
      have htne : tail.length ≠ 0 := by
        intro h0
        rw [List.isEmpty_iff] at hte
        exact hte (List.eq_nil_of_length_eq_zero h0)
      rw [cvStartInsert, if_neg htne, if_neg (by simp only [htakelen]; omega)]
      rw [if_neg (by simp only [htakelen]; omega)]
      have hshift : shiftUp (v1.elems.take i ++ List.replicate tail.length (default : α))
          i tail.length = v1.elems.take i ++ List.replicate tail.length (default : α) := by
        apply shiftUp_full
        simp only [List.length_append, List.length_replicate, htakelen]
        omega
      rw [except_bind_ok, except_bind_ok]
      refine ⟨_, rfl, ?_, ?_⟩
      · simp only [hshift, copyAt, htakelen]
        rw [List.take_left' htakelen]
        have hdroplen : ((v1.elems.take i ++ List.replicate tail.length (default : α))).length
            = i + tail.length := by
          simp [htakelen]
        rw [List.drop_eq_nil_of_le (by simp [htakelen]), List.append_nil]
      · constructor
        · simp only [copyAt, hshift, htakelen]
          rw [List.take_left' htakelen, List.drop_eq_nil_of_le (by simp [htakelen]),
            List.append_nil]
          simp only [List.length_append, htakelen]
          omega
        · simp
  · rw [if_neg hmig]
    refine ⟨_, rfl, rfl, ?_, ?_⟩
    · simp only [List.length_append, List.length_take, List.length_drop]
      omega
    · simp only
      exact hrep

/-- C9: erasing at `i` the element just inserted at `i` restores the vector
by value (the `operator ==` notion of equality), through any inline-to-
external growth the insert causes and the external-to-inline migration the
erase performs; both operations preserve the values and relative order of the
untouched elements, as the `take`/`drop` shapes of the element sequences
show. -/
theorem cv_erase_insert_roundtrip {α : Type} [Inhabited α] {N : Nat} (v : CV α N)
    (i : Nat) (x : α) (hwf : WFcv v) (hi : i ≤ v.elems.length)
    (hs : v.elems.length + 1 ≤ maxSizeCV) :
    ∃ v1 v2 : CV α N, cvInsert v i x = .ok v1 ∧
      v1.elems = v.elems.take i ++ x :: v.elems.drop i ∧
      cvErase v1 i (i + 1) = .ok v2 ∧ cvEqv v2 v ∧ WFcv v2 := by
  obtain ⟨v1, hins, helems, hwf1⟩ := cvInsert_spec v i x hwf hi hs
  have htakelen : (v.elems.take i).length = i := by
    rw [List.length_take]
    omega
  have hlen1 : v1.elems.length = v.elems.length + 1 := by
    rw [helems]
    simp only [List.length_append, List.length_cons, List.length_drop, htakelen]
    omega
  obtain ⟨v2, hers, helems2, hwf2⟩ := cvErase_one_spec v1 i hwf1 (by omega)
  refine ⟨v1, v2, hins, helems, hers, ?_, hwf2⟩
  rw [cvEqv, helems2, helems]
  rw [List.take_left' htakelen, List.append_cons]
  rw [List.drop_left' (by simp [htakelen])]
  exact List.take_append_drop i v.elems

/-- Witness for `cv_erase_insert_roundtrip`: inserting `99` at position 1 of
the full inline vector `[10, 20]` (forcing external storage) and erasing it
again restores `[10, 20]` and a well-formed representation. -/
theorem cv_erase_insert_roundtrip_witness :
    ∃ v1 v2 : CV Nat 2, cvInsert exCV 1 99 = .ok v1 ∧
      v1.elems = exCV.elems.take 1 ++ 99 :: exCV.elems.drop 1 ∧
      cvErase v1 1 (1 + 1) = .ok v2 ∧ cvEqv v2 exCV ∧ WFcv v2 :=
  cv_erase_insert_roundtrip exCV 1 99 (by decide) (by decide) (by decide)

end CompactVec

namespace AugLoop

theorem mem_insertSorted (x y : String) (l : List String) :
    y ∈ insertSorted x l ↔ y = x ∨ y ∈ l := by
  induction l with
  | nil => simp [insertSorted]
  | cons a rest ih =>
    rw [insertSorted]
    split
    · simp only [List.mem_cons]
    · simp only [List.mem_cons, ih]
      tauto

theorem mem_sortNames (x : String) (l : List String) : x ∈ sortNames l ↔ x ∈ l := by
  induction l with
  | nil => simp [sortNames]
  | cons a rest ih =>
    have hfold : sortNames (a :: rest) = insertSorted a (sortNames rest) := rfl
    rw [hfold, mem_insertSorted, ih, List.mem_cons]

theorem mergeGo_subset_right :
    ∀ (fuel : Nat) (l1 l2 : List String) (x : String), x ∈ mergeGo fuel l1 l2 → x ∈ l2 := by
  intro fuel
  induction fuel with
  | zero => intro l1 l2 x h; simp [mergeGo] at h
  | succ n ih =>
    intro l1 l2 x h
    match l1, l2 with
    | [], l2 => simp [mergeGo] at h
    | a :: as, [] => simp [mergeGo] at h
    | a :: as, b :: bs =>
      rw [mergeGo] at h
      split at h
      · next hab =>
        subst hab
        rcases List.mem_cons.mp h with rfl | h2
        · exact List.mem_cons_self _ _
        · exact List.mem_cons_of_mem _ (ih as bs x h2)
      · split at h
        · exact ih as (b :: bs) x h
        · exact List.mem_cons_of_mem _ (ih (a :: as) bs x h)

theorem mem_mergeOutstanding_right (l1 l2 : List String) (x : String)
    (h : x ∈ mergeOutstanding l1 l2) : x ∈ l2 :=
  mergeGo_subset_right _ _ _ _ h

theorem dirFind?_name :
    ∀ (dir : List AugmentorInfo) (n : String) (a : AugmentorInfo),
      dirFind? dir n = some a → a.name = n := by
  intro dir
  induction dir with
  | nil => intro n a h; cases h
  | cons b rest ih =>
    intro n a h
    rw [dirFind?] at h
    split at h
    · next hb => cases h; exact hb
    · exact ih n a h

theorem dirFind?_mem :
    ∀ (dir : List AugmentorInfo) (n : String) (a : AugmentorInfo),
      dirFind? dir n = some a → a ∈ dir := by
  intro dir
  induction dir with
  | nil => intro n a h; cases h
  | cons b rest ih =>
    intro n a h
    rw [dirFind?] at h
    split at h
    · cases h; exact List.mem_cons_self _ _
    · exact List.mem_cons_of_mem _ (ih n a h)

theorem dirFind?_isSome :
    ∀ (dir : List AugmentorInfo) (n : String), n ∈ dirNames dir →
      ∃ a, dirFind? dir n = some a := by
  intro dir
  induction dir with
  | nil => intro n h; simp [dirNames] at h
  | cons b rest ih =>
    intro n h
    rw [dirFind?]
    by_cases hb : b.name = n
    · exact ⟨b, by rw [if_pos hb]⟩
    · rw [dirNames, List.map_cons, List.mem_cons] at h
      rcases h with h | h
      · exact absurd h.symm hb
      · rw [if_neg hb]
        exact ih n h

theorem dirMap_split (dir : List AugmentorInfo) (n : String)
    (f : AugmentorInfo → AugmentorInfo) (a : AugmentorInfo)
    (h : dirFind? dir n = some a) :
    ∃ pre post, dir = pre ++ a :: post ∧ dirMap n f dir = pre ++ f a :: post := by
  induction dir with
  | nil => cases h
  | cons b rest ih =>
    rw [dirFind?] at h
    by_cases hb : b.name = n
    · rw [if_pos hb] at h
      cases h
      exact ⟨[], rest, rfl, by rw [dirMap, if_pos hb]; rfl⟩
    · rw [if_neg hb] at h
      obtain ⟨pre, post, hdir, hmap⟩ := ih h
      exact ⟨b :: pre, post, by rw [hdir]; rfl, by rw [dirMap, if_neg hb, hmap]; rfl⟩

theorem dirMap_names (n : String) (f : AugmentorInfo → AugmentorInfo)
    (hf : ∀ a, (f a).name = a.name) :
    ∀ dir, dirNames (dirMap n f dir) = dirNames dir := by
  intro dir
  induction dir with
  | nil => rfl
  | cons b rest ih =>
    rw [dirMap]
    split
    · simp [dirNames, hf]
    · simp only [dirNames, List.map_cons] at ih ⊢
      rw [ih]

theorem dirSet_elems :
    ∀ (dir : List AugmentorInfo) (k : String) (a b : AugmentorInfo),
      b ∈ dirSet dir k a → b ∈ dir ∨ b = a := by
  intro dir
  induction dir with
  | nil =>
    intro k a b h
    rw [dirSet] at h
    rcases List.mem_singleton.mp h with rfl
    exact Or.inr rfl
  | cons c rest ih =>
    intro k a b h
    rw [dirSet] at h
    split at h
    · rcases List.mem_cons.mp h with rfl | h2
      · exact Or.inr rfl
      · exact Or.inl (List.mem_cons_of_mem _ h2)
    · rcases List.mem_cons.mp h with rfl | h2
      · exact Or.inl (List.mem_cons_self _ _)
      · rcases ih k a b h2 with h3 | h3
        · exact Or.inl (List.mem_cons_of_mem _ h3)
        · exact Or.inr h3

theorem dirSet_names_superset (k : String) (a : AugmentorInfo) (hk : a.name = k) :
    ∀ (dir : List AugmentorInfo) (x : String), x ∈ dirNames dir →
      x ∈ dirNames (dirSet dir k a) := by
  intro dir
  induction dir with
  | nil => intro x h; simp [dirNames] at h
  | cons c rest ih =>
    intro x h
    rw [dirNames, List.map_cons, List.mem_cons] at h
    rw [dirSet]
    split
    · next hc =>
      rcases h with rfl | h
      · rw [dirNames, List.map_cons, List.mem_cons]
        left
        rw [hk, hc]
      · rw [dirNames, List.map_cons, List.mem_cons]
        right
        exact h
    · rcases h with rfl | h
      · rw [dirNames, List.map_cons, List.mem_cons]
        left
        rfl
      · rw [dirNames, List.map_cons, List.mem_cons]
        right
        exact ih x h

theorem dirSet_mem_name (k : String) (a : AugmentorInfo) (hk : a.name = k) :
    ∀ dir, k ∈ dirNames (dirSet dir k a) := by
  intro dir
  induction dir with
  | nil => simp [dirSet, dirNames, hk]
  | cons c rest ih =>
    rw [dirSet]
    split
    · simp [dirNames, hk]
    · rw [dirNames, List.map_cons, List.mem_cons]
      right
      exact ih

theorem removeFirstAddr_subset :
    ∀ (l : List AugmentorInstanceInfo) (addr : String) (x : AugmentorInstanceInfo),
      x ∈ removeFirstAddr l addr → x ∈ l := by
  intro l
  induction l with
  | nil => intro addr x h; cases h
  | cons i rest ih =>
    intro addr x h
    rw [removeFirstAddr] at h
    split at h
    · exact List.mem_cons_of_mem _ h
    · rcases List.mem_cons.mp h with rfl | h2
      · exact List.mem_cons_self _ _
      · exact List.mem_cons_of_mem _ (ih addr x h2)

theorem decFirstAddr_elems :
    ∀ (l : List AugmentorInstanceInfo) (addr : String) (x : AugmentorInstanceInfo),
      x ∈ decFirstAddr l addr →
        x ∈ l ∨ ∃ y ∈ l, x = { y with numInFlight := y.numInFlight - 1 } := by
  intro l
  induction l with
  | nil => intro addr x h; cases h
  | cons i rest ih =>
    intro addr x h
    rw [decFirstAddr] at h
    split at h
    · rcases List.mem_cons.mp h with rfl | h2
      · exact Or.inr ⟨i, List.mem_cons_self _ _, rfl⟩
      · exact Or.inl (List.mem_cons_of_mem _ h2)
    · rcases List.mem_cons.mp h with rfl | h2
      · exact Or.inl (List.mem_cons_self _ _)
      · rcases ih addr x h2 with h3 | ⟨y, hy, hx⟩
        · exact Or.inl (List.mem_cons_of_mem _ h3)
        · exact Or.inr ⟨y, List.mem_cons_of_mem _ hy, hx⟩

theorem incAt_elems :
    ∀ (l : List AugmentorInstanceInfo) (i : Nat) (x : AugmentorInstanceInfo),
      x ∈ incAt l i →
        x ∈ l ∨ ∃ y, l[i]? = some y ∧ x = { y with numInFlight := y.numInFlight + 1 } := by
  intro l
  induction l with
  | nil => intro i x h; cases h
  | cons a rest ih =>
    intro i x h
    cases i with
    | zero =>
      rw [incAt] at h
      rcases List.mem_cons.mp h with rfl | h2
      · exact Or.inr ⟨a, List.getElem?_cons_zero, rfl⟩
      · exact Or.inl (List.mem_cons_of_mem _ h2)
    | succ k =>
      rw [incAt] at h
      rcases List.mem_cons.mp h with rfl | h2
      · exact Or.inl (List.mem_cons_self _ _)
      · rcases ih k x h2 with h3 | ⟨y, hy, hx⟩
        · exact Or.inl (List.mem_cons_of_mem _ h3)
        · exact Or.inr ⟨y, by rwa [List.getElem?_cons_succ], hx⟩

theorem pickIdxAux_some_avail (rest : List AugmentorInstanceInfo) :
    ∀ (pre : List AugmentorInstanceInfo) (minIF : Int) (best : Option Nat),
      (∀ (b : Nat) (inst : AugmentorInstanceInfo), best = some b →
        (pre ++ rest)[b]? = some inst → availI inst) →
      ∀ (i : Nat) (inst : AugmentorInstanceInfo),
        pickIdxAux rest minIF best pre.length = some i →
        (pre ++ rest)[i]? = some inst → availI inst := by
  induction rest with
  | nil =>
    intro pre minIF best hbest i inst hres hget
    rw [pickIdxAux] at hres
    exact hbest i inst hres hget
  | cons inst0 rest2 ih =>
    intro pre minIF best hbest i inst hres hget
    rw [pickIdxAux] at hres
    have hassoc : (pre ++ [inst0]) ++ rest2 = pre ++ inst0 :: rest2 := by
      rw [List.append_assoc]
      rfl
    have hlen : (pre ++ [inst0]).length = pre.length + 1 := by simp
    split at hres
    · refine ih (pre ++ [inst0]) minIF best ?_ i inst (by rwa [hlen]) ?_
      · intro b instB hb hgetB
        exact hbest b instB hb (by rwa [hassoc] at hgetB)
      · rwa [hassoc]
    · split at hres
      · refine ih (pre ++ [inst0]) minIF best ?_ i inst (by rwa [hlen]) ?_
        · intro b instB hb hgetB
          exact hbest b instB hb (by rwa [hassoc] at hgetB)
        · rwa [hassoc]
      · next hge hcap =>
        refine ih (pre ++ [inst0]) inst0.numInFlight (some pre.length) ?_ i inst
          (by rwa [hlen]) ?_
        · intro b instB hb hgetB
          have hbb : b = pre.length := by
            cases hb
            rfl
          subst hbb
          rw [hassoc] at hgetB
          rw [List.getElem?_append_right (le_refl pre.length)] at hgetB
          simp only [Nat.sub_self, List.getElem?_cons_zero, Option.some_inj] at hgetB
          subst hgetB
          rw [availI]
          omega
        · rwa [hassoc]

theorem pickInstanceIdx_avail (l : List AugmentorInstanceInfo) (i : Nat)
    (inst : AugmentorInstanceInfo) (hres : pickInstanceIdx l = some i)
    (hget : l[i]? = some inst) : availI inst := by
  have := pickIdxAux_some_avail l [] intMax none
    (fun b instB hb => by cases hb) i inst
  simp only [List.nil_append, List.length_nil] at this
  exact this hres hget

end AugLoop


namespace AugLoop

theorem discProcess_skip (addr aug : String) (a : AugmentorInfo)
    (rest : List AugmentorInfo) (h : a.name ≠ "" ∧ a.name ≠ aug) :
    discProcess addr aug (a :: rest) =
      ((a :: (discProcess addr aug rest).1), (discProcess addr aug rest).2) := by
  rw [discProcess, if_pos h]

theorem doDisc_noop (dir : List AugmentorInfo) (addr : String)
    (hne : ∀ a ∈ dir, a.name ≠ "") :
    doDisconnectionDir dir addr "" = (dir, false) := by
  have hproc : discProcess addr "" dir = (dir, []) := by
    induction dir with
    | nil => rfl
    | cons a rest ih =>
      have ha : a.name ≠ "" := hne a (List.mem_cons_self _ _)
      rw [discProcess_skip addr "" a rest ⟨ha, ha⟩,
        ih (fun b hb => hne b (List.mem_cons_of_mem _ hb))]
  rw [doDisconnectionDir]
  simp only [hproc]
  have hfil : List.filter (fun a => decide (a.name ∉ ([] : List String))) dir = dir := by
    rw [List.filter_eq_self]
    intro a _
    simp
  rw [hfil]
  rfl

theorem discProcess_elems (addr aug : String) :
    ∀ (dir : List AugmentorInfo), ∀ b ∈ (discProcess addr aug dir).1,
      ∃ a ∈ dir, b.name = a.name ∧
        (b = a ∨ b.instances = removeFirstAddr a.instances addr) := by
  intro dir
  induction dir with
  | nil => intro b hb; cases hb
  | cons a rest ih =>
    intro b hb
    rw [discProcess] at hb
    split at hb
    · rcases List.mem_cons.mp hb with rfl | hb2
      · exact ⟨b, List.mem_cons_self _ _, rfl, Or.inl rfl⟩
      · obtain ⟨a2, ha2, hn, hor⟩ := ih b hb2
        exact ⟨a2, List.mem_cons_of_mem _ ha2, hn, hor⟩
    · simp only at hb
      split at hb
      · rcases List.mem_cons.mp hb with rfl | hb2
        · exact ⟨a, List.mem_cons_self _ _, rfl, Or.inr rfl⟩
        · obtain ⟨a2, ha2, hn, hor⟩ := ih b hb2
          exact ⟨a2, List.mem_cons_of_mem _ ha2, hn, hor⟩
      · rcases List.mem_cons.mp hb with rfl | hb2
        · exact ⟨a, List.mem_cons_self _ _, rfl, Or.inr rfl⟩
        · obtain ⟨a2, ha2, hn, hor⟩ := ih b hb2
          exact ⟨a2, List.mem_cons_of_mem _ ha2, hn, hor⟩

theorem doDisc_elems (dir : List AugmentorInfo) (addr aug : String) :
    ∀ b ∈ (doDisconnectionDir dir addr aug).1,
      ∃ a ∈ dir, b.name = a.name ∧
        (b = a ∨ b.instances = removeFirstAddr a.instances addr) := by
  intro b hb
  rw [doDisconnectionDir] at hb
  simp only [List.mem_filter] at hb
  exact discProcess_elems addr aug dir b hb.1

theorem discProcess_names (addr aug : String) :
    ∀ (dir : List AugmentorInfo),
      dirNames (discProcess addr aug dir).1 = dirNames dir := by
  intro dir
  induction dir with
  | nil => rfl
  | cons a rest ih =>
    rw [discProcess]
    split
    · simp only [dirNames, List.map_cons] at ih ⊢
      rw [ih]
    · simp only
      split
      · simp only [dirNames, List.map_cons] at ih ⊢
        rw [ih]
      · simp only [dirNames, List.map_cons] at ih ⊢
        rw [ih]

theorem discProcess_toErase (addr aug : String) :
    ∀ (dir : List AugmentorInfo), ∀ y ∈ (discProcess addr aug dir).2,
      ∃ a ∈ dir, y = a.name ∧ (a.name = "" ∨ a.name = aug) := by
  intro dir
  induction dir with
  | nil => intro y hy; cases hy
  | cons a rest ih =>
    intro y hy
    rw [discProcess] at hy
    split at hy
    · obtain ⟨a2, ha2, h1, h2⟩ := ih y hy
      exact ⟨a2, List.mem_cons_of_mem _ ha2, h1, h2⟩
    · next hcond =>
      have hname : a.name = "" ∨ a.name = aug := by
        by_cases h1 : a.name = ""
        · exact Or.inl h1
        · right
          by_contra h2
          exact hcond ⟨h1, h2⟩
      simp only at hy
      split at hy
      · rcases List.mem_cons.mp hy with rfl | hy2
        · exact ⟨a, List.mem_cons_self _ _, rfl, hname⟩
        · obtain ⟨a2, ha2, h1, h2⟩ := ih y hy2
          exact ⟨a2, List.mem_cons_of_mem _ ha2, h1, h2⟩
      · obtain ⟨a2, ha2, h1, h2⟩ := ih y hy
        exact ⟨a2, List.mem_cons_of_mem _ ha2, h1, h2⟩

theorem doDisc_names (dir : List AugmentorInfo) (addr aug : String)
    (hne : ∀ a ∈ dir, a.name ≠ "") :
    ∀ x ∈ dirNames dir, x ≠ aug → x ∈ dirNames (doDisconnectionDir dir addr aug).1 := by
  intro x hx hxaug
  have hx2 : x ∈ dirNames (discProcess addr aug dir).1 := by
    rw [discProcess_names]
    exact hx
  rcases List.mem_map.mp hx2 with ⟨b, hb, hbx⟩
  rw [doDisconnectionDir]
  simp only [dirNames]
  apply List.mem_map.mpr
  refine ⟨b, ?_, hbx⟩
  rw [List.mem_filter]
  refine ⟨hb, ?_⟩
  rw [decide_eq_true_eq]
  intro hmem
  obtain ⟨a2, ha2, h1, h2⟩ := discProcess_toErase addr aug dir b.name hmem
  rcases h2 with h2 | h2
  · exact absurd h2 (hne a2 ha2)
  · apply hxaug
    rw [← hbx, h1, h2]

end AugLoop

namespace AugLoop

theorem dispatchAll_names :
    ∀ (names : List String) (dir : List AugmentorInfo) (nA : List String) (nd : Bool),
      dirNames (dispatchAll dir names nA nd).1 = dirNames dir := by
  intro names
  induction names with
  | nil => intro dir nA nd; rfl
  | cons n rest ih =>
    intro dir nA nd
    rw [dispatchAll]
    split
    · exact ih dir nA true
    · next a hfind =>
      split
      · exact ih dir (nA ++ [n]) nd
      · next i hpick =>
        rw [ih, dirMap_names n
          (fun a2 => { a2 with instances := incAt a2.instances i }) (fun a2 => rfl)]

theorem dispatchAll_bound :
    ∀ (names : List String) (dir : List AugmentorInfo) (nA : List String) (nd : Bool),
      (∀ a ∈ dir, ∀ inst ∈ a.instances, inst.numInFlight ≤ inst.maxInFlight) →
      ∀ a ∈ (dispatchAll dir names nA nd).1, ∀ inst ∈ a.instances,
        inst.numInFlight ≤ inst.maxInFlight := by
  intro names
  induction names with
  | nil => intro dir nA nd hb; exact hb
  | cons n rest ih =>
    intro dir nA nd hb
    rw [dispatchAll]
    split
    · exact ih dir nA true hb
    · next a hfind =>
      split
      · exact ih dir (nA ++ [n]) nd hb
      · next i hpick =>
        apply ih
        intro a2 ha2 inst hinst
        obtain ⟨pre, post, hdir, hmap⟩ :=
          dirMap_split dir n (fun a2 => { a2 with instances := incAt a2.instances i }) a hfind
        rw [hmap] at ha2
        rcases List.mem_append.mp ha2 with hpre | hpost
        · exact hb a2 (by rw [hdir]; exact List.mem_append_left _ hpre) inst hinst
        · rcases List.mem_cons.mp hpost with heq | hpost2
          · subst heq
            simp only at hinst
            rcases incAt_elems a.instances i inst hinst with h2 | ⟨y, hy, hx⟩
            · exact hb a (dirFind?_mem dir n a hfind) inst h2
            · have hav : availI y := pickInstanceIdx_avail a.instances i y hpick hy
              rw [availI] at hav
              subst hx
              simp only
              omega
          · exact hb a2
              (by rw [hdir]; exact List.mem_append_right _ (List.mem_cons_of_mem _ hpost2))
              inst hinst

theorem dispatchAll_noflag :
    ∀ (names : List String) (dir : List AugmentorInfo) (nA : List String),
      (∀ n ∈ names, n ∈ dirNames dir) →
      (dispatchAll dir names nA false).2.2 = false := by
  intro names
  induction names with
  | nil => intro dir nA _; rfl
  | cons n rest ih =>
    intro dir nA hmem
    rw [dispatchAll]
    split
    · next hfind =>
      exfalso
      obtain ⟨a, ha⟩ := dirFind?_isSome dir n (hmem n (List.mem_cons_self _ _))
      rw [hfind] at ha
      cases ha
    · next a hfind =>
      split
      · exact ih dir (nA ++ [n]) (fun m hm => hmem m (List.mem_cons_of_mem _ hm))
      · next i hpick =>
        apply ih
        intro m hm
        rw [dirMap_names n
          (fun a2 => { a2 with instances := incAt a2.instances i }) (fun a2 => rfl)]
        exact hmem m (List.mem_cons_of_mem _ hm)

theorem findTok_split :
    ∀ (l : List (String × Nat)) (sid : String) (tok : Nat),
      findTok l sid = some tok →
      ∃ pre post, l = pre ++ (sid, tok) :: post ∧ removeId l sid = pre ++ post := by
  intro l
  induction l with
  | nil => intro sid tok h; cases h
  | cons p rest ih =>
    intro sid tok h
    rw [findTok] at h
    by_cases hp : p.1 = sid
    · rw [if_pos hp] at h
      have hp2 : p.2 = tok := Option.some_inj.mp h
      have hpair : p = (sid, tok) := by
        cases p
        simp_all
      refine ⟨[], rest, by rw [hpair]; rfl, ?_⟩
      rw [removeId, if_pos hp]
      rfl
    · rw [if_neg hp] at h
      obtain ⟨pre, post, hsplit, hrem⟩ := ih sid tok h
      exact ⟨p :: pre, post, by rw [hsplit]; rfl, by rw [removeId, if_neg hp, hrem]; rfl⟩

theorem fireTok_none (es : List EntryRec) (t : Nat) (h : es[t]? = none) :
    fireTok es t = es := by
  rw [fireTok, h]

theorem fireTok_length (es : List EntryRec) (t : Nat) :
    (fireTok es t).length = es.length := by
  rw [fireTok]
  rcases h : es[t]? with _ | e
  · rfl
  · rw [List.length_set]

theorem fireTok_get_ne (es : List EntryRec) (t u : Nat) (h : u ≠ t) :
    (fireTok es t)[u]? = es[u]? := by
  rw [fireTok]
  rcases h2 : es[t]? with _ | e
  · rfl
  · rw [List.getElem?_set_ne (fun he => h he.symm)]

theorem fireTok_get_self (es : List EntryRec) (t : Nat) (e : EntryRec)
    (h : es[t]? = some e) :
    (fireTok es t)[t]? = some { e with fired := e.fired ++ [e.augs] } := by
  rw [fireTok, h]
  have hlt : t < es.length := by
    rcases List.getElem?_eq_some.mp h with ⟨hlt, _⟩
    exact hlt
  rw [List.getElem?_set_self hlt]

end AugLoop

namespace AugLoop

theorem fireFold_spec (L : List (String × Nat)) :
    ∀ (es : List EntryRec),
      (L.map (fun p => p.2)).Nodup →
      (∀ p ∈ L, ∀ e, es[p.2]? = some e → e.fired = []) →
      ((L.foldl (fun es2 p => fireTok es2 p.2) es).length = es.length
      ∧ (∀ u, u ∉ L.map (fun p => p.2) →
          (L.foldl (fun es2 p => fireTok es2 p.2) es)[u]? = es[u]?)
      ∧ (∀ (u : Nat) (e2 : EntryRec),
          (L.foldl (fun es2 p => fireTok es2 p.2) es)[u]? = some e2 →
          ∃ e, es[u]? = some e ∧
            (e2 = e ∨ (e.fired = [] ∧ e2 = { e with fired := [e.augs] })))) := by
  induction L with
  | nil =>
    intro es _ _
    refine ⟨rfl, fun u _ => rfl, ?_⟩
    intro u e2 h
    exact ⟨e2, h, Or.inl rfl⟩
  | cons p L2 ih =>
    intro es hnodup hfired
    rw [List.map_cons, List.nodup_cons] at hnodup
    have hnotin : p.2 ∉ L2.map (fun q => q.2) := hnodup.1
    have ih2 := ih (fireTok es p.2) hnodup.2 (by
      intro q hq e he
      rw [fireTok_get_ne es p.2 q.2 (by
        intro hqp
        exact hnotin (hqp ▸ List.mem_map.mpr ⟨q, hq, rfl⟩))] at he
      exact hfired q (List.mem_cons_of_mem _ hq) e he)
    simp only [List.foldl_cons]
    refine ⟨?_, ?_, ?_⟩
    · rw [ih2.1, fireTok_length]
    · intro u hu
      rw [List.map_cons, List.mem_cons] at hu
      push_neg at hu
      rw [ih2.2.1 u hu.2, fireTok_get_ne es p.2 u hu.1]
    · intro u e2 h
      obtain ⟨e1, he1, hd⟩ := ih2.2.2 u e2 h
      by_cases hup : u = p.2
      · rw [hup] at he1 ⊢
        rcases h0 : es[p.2]? with _ | e0
        · rw [fireTok_none es p.2 h0, h0] at he1
          cases he1
        · have hf0 : e0.fired = [] := hfired p (List.mem_cons_self _ _) e0 h0
          rw [fireTok_get_self es p.2 e0 h0] at he1
          have he1' : e1 = { e0 with fired := e0.fired ++ [e0.augs] } :=
            (Option.some_inj.mp he1).symm
          refine ⟨e0, rfl, Or.inr ⟨hf0, ?_⟩⟩
          rcases hd with rfl | ⟨hfe1, he2⟩
          · rw [he1', hf0]
            rfl
          · exfalso
            rw [he1', hf0] at hfe1
            simp at hfe1
      · rw [fireTok_get_ne es p.2 u hup] at he1
        exact ⟨e1, he1, hd⟩

end AugLoop

namespace AugLoop

theorem entGet_append (es : List EntryRec) (e : EntryRec) (t : Nat)
    (h : t < es.length) : (es ++ [e])[t]? = es[t]? := by
  rw [List.getElem?_append, if_pos h]

theorem inv_augment (s : LoopState) (pg : List (List PotentialBidder)) (id : String)
    (tmo : Nat) (hinv : Inv s) : Inv (augmentStep s pg id tmo) := by
  rw [augmentStep]
  set out := mergeOutstanding (neededAugmentors pg) s.snapshot with hout
  by_cases hcase : out.isEmpty
  · rw [if_pos hcase]
    refine ⟨?_, ?_, ?_, ?_, ?_, ?_, ?_, ?_, ?_, ?_, ?_, ?_, ?_⟩
    · intro t ht
      have := hinv.inboxLt t ht
      simp only [List.length_append, List.length_singleton]
      omega
    · intro t ht e he
      rw [entGet_append _ _ _ (hinv.inboxLt t ht)] at he
      exact hinv.inboxFired t ht e he
    · intro t ht e he
      rw [entGet_append _ _ _ (hinv.inboxLt t ht)] at he
      exact hinv.inboxOut t ht e he
    · exact hinv.inboxNodup
    · intro t ht
      exact hinv.inboxDisj t ht
    · intro t ht
      have := hinv.augLt t ht
      simp only [List.length_append, List.length_singleton]
      omega
    · intro t ht e he
      rw [entGet_append _ _ _ (hinv.augLt t ht)] at he
      exact hinv.augFired t ht e he
    · exact hinv.augNodup
    · intro e he
      rcases List.mem_append.mp he with h | h
      · exact hinv.firedLe e h
      · rcases List.mem_singleton.mp h with rfl
        simp only [hcase]
        simp
    · exact hinv.snapSub
    · exact hinv.dirNE
    · exact hinv.dirBound
    · exact hinv.noDeref
  · rw [if_neg hcase]
    have hfalse : out.isEmpty = false := by
      simpa using hcase
    have hlen : s.entries.length ∉ s.inbox := by
      intro h
      have := hinv.inboxLt _ h
      omega
    refine ⟨?_, ?_, ?_, ?_, ?_, ?_, ?_, ?_, ?_, ?_, ?_, ?_, ?_⟩
    · intro t ht
      simp only [List.length_append, List.length_singleton]
      rcases List.mem_append.mp ht with h | h
      · have := hinv.inboxLt t h
        omega
      · rcases List.mem_singleton.mp h with rfl
        omega
    · intro t ht e he
      rcases List.mem_append.mp ht with h | h
      · rw [entGet_append _ _ _ (hinv.inboxLt t h)] at he
        exact hinv.inboxFired t h e he
      · rcases List.mem_singleton.mp h with rfl
        rw [List.getElem?_concat_length] at he
        cases he
        simp only [hfalse]
        rfl
    · intro t ht e he
      rcases List.mem_append.mp ht with h | h
      · rw [entGet_append _ _ _ (hinv.inboxLt t h)] at he
        exact hinv.inboxOut t h e he
      · rcases List.mem_singleton.mp h with rfl
        rw [List.getElem?_concat_length] at he
        cases he
        intro n hn
        exact hinv.snapSub n (mem_mergeOutstanding_right _ _ n hn)
    · rw [List.nodup_append]
      exact ⟨hinv.inboxNodup, List.nodup_singleton _,
        fun t ht h2 => hlen ((List.mem_singleton.mp h2) ▸ ht)⟩
    · intro t ht
      rcases List.mem_append.mp ht with h | h
      · exact hinv.inboxDisj t h
      · rcases List.mem_singleton.mp h with rfl
        intro h2
        have := hinv.augLt _ h2
        omega
    · intro t ht
      have := hinv.augLt t ht
      simp only [List.length_append, List.length_singleton]
      omega
    · intro t ht e he
      rw [entGet_append _ _ _ (hinv.augLt t ht)] at he
      exact hinv.augFired t ht e he
    · exact hinv.augNodup
    · intro e he
      rcases List.mem_append.mp he with h | h
      · exact hinv.firedLe e h
      · rcases List.mem_singleton.mp h with rfl
        simp only [hfalse]
        simp
    · exact hinv.snapSub
    · exact hinv.dirNE
    · exact hinv.dirBound
    · exact hinv.noDeref

theorem inv_drain (s : LoopState) (hinv : Inv s) : Inv (doAugmentationStep s) := by
  rw [doAugmentationStep]
  split
  · exact hinv
  · next tok rest hin =>
    have htokin : tok ∈ s.inbox := by
      rw [hin]
      exact List.mem_cons_self _ _
    have htoklt : tok < s.entries.length := hinv.inboxLt tok htokin
    have hrestin : ∀ t ∈ rest, t ∈ s.inbox := by
      intro t ht
      rw [hin]
      exact List.mem_cons_of_mem _ ht
    have hrestnodup : rest.Nodup := by
      have := hinv.inboxNodup
      rw [hin, List.nodup_cons] at this
      exact this.2
    have htoknotrest : tok ∉ rest := by
      have := hinv.inboxNodup
      rw [hin, List.nodup_cons] at this
      exact this.1
    split
    · next hget =>
      exact absurd hget (by rw [List.getElem?_eq_getElem htoklt]; simp)
    · next e hget =>
      by_cases hdup : hasId s.augmenting e.infoId
      · rw [if_pos hdup]
        refine ⟨?_, ?_, ?_, ?_, ?_, ?_, ?_, ?_, ?_, ?_, ?_, ?_, ?_⟩
        · exact fun t ht => hinv.inboxLt t (hrestin t ht)
        · exact fun t ht => hinv.inboxFired t (hrestin t ht)
        · exact fun t ht => hinv.inboxOut t (hrestin t ht)
        · exact hrestnodup
        · intro t ht
          have := hinv.inboxDisj t (hrestin t ht)
          simpa [augToks] using this
        · intro t ht
          simp only [augToks] at ht
          exact hinv.augLt t ht
        · intro t ht
          simp only [augToks] at ht
          exact hinv.augFired t ht
        · have := hinv.augNodup
          simpa [augToks] using this
        · exact hinv.firedLe
        · exact hinv.snapSub
        · exact hinv.dirNE
        · exact hinv.dirBound
        · exact hinv.noDeref
      · rw [if_neg hdup]
        have hnames : dirNames (dispatchAll s.directory e.outstanding s.noAvailable
            s.nullDeref).1 = dirNames s.directory := dispatchAll_names _ _ _ _
        refine ⟨?_, ?_, ?_, ?_, ?_, ?_, ?_, ?_, ?_, ?_, ?_, ?_, ?_⟩ <;>
          simp only [augToks, List.map_append, List.map_cons, List.map_nil]
        · exact fun t ht => hinv.inboxLt t (hrestin t ht)
        · exact fun t ht => hinv.inboxFired t (hrestin t ht)
        · intro t ht e2 he2 n hn
          rw [hnames]
          exact hinv.inboxOut t (hrestin t ht) e2 he2 n hn
        · exact hrestnodup
        · intro t ht hmem
          rcases List.mem_append.mp hmem with h | h
          · exact hinv.inboxDisj t (hrestin t ht) h
          · rcases List.mem_singleton.mp h with rfl
            exact htoknotrest ht
        · intro t ht
          rcases List.mem_append.mp ht with h | h
          · exact hinv.augLt t h
          · rcases List.mem_singleton.mp h with rfl
            exact htoklt
        · intro t ht e2 he2
          rcases List.mem_append.mp ht with h | h
          · exact hinv.augFired t h e2 he2
          · rcases List.mem_singleton.mp h with rfl
            rw [hget] at he2
            cases he2
            exact hinv.inboxFired t htokin e hget
        · rw [List.nodup_append]
          refine ⟨hinv.augNodup, List.nodup_singleton _, ?_⟩
          intro t ht h2
          exact hinv.inboxDisj tok htokin ((List.mem_singleton.mp h2) ▸ ht)
        · exact hinv.firedLe
        · intro n hn
          rw [hnames]
          exact hinv.snapSub n hn
        · intro a ha
          have hname : a.name ∈ dirNames s.directory := by
            rw [← hnames]
            exact List.mem_map.mpr ⟨a, ha, rfl⟩
          rcases List.mem_map.mp hname with ⟨b, hb, hba⟩
          rw [← hba]
          exact hinv.dirNE b hb
        · exact fun a ha => dispatchAll_bound e.outstanding s.directory s.noAvailable
            s.nullDeref hinv.dirBound a ha
        · rw [hinv.noDeref]
          exact dispatchAll_noflag e.outstanding s.directory s.noAvailable
            (fun n hn => hinv.inboxOut tok htokin e hget n hn)

end AugLoop

namespace AugLoop

theorem respDecDir_names (dir : List AugmentorInfo) (augName addr : String) :
    dirNames (respDecDir dir augName addr) = dirNames dir := by
  rw [respDecDir]
  split
  · exact dirMap_names augName
      (fun a => { a with instances := decFirstAddr a.instances addr }) (fun a => rfl) dir
  · rfl

theorem respDecDir_bound (dir : List AugmentorInfo) (augName addr : String)
    (hb : ∀ a ∈ dir, ∀ inst ∈ a.instances, inst.numInFlight ≤ inst.maxInFlight) :
    ∀ a ∈ respDecDir dir augName addr, ∀ inst ∈ a.instances,
      inst.numInFlight ≤ inst.maxInFlight := by
  rw [respDecDir]
  split
  · next a0 hfind =>
    intro a2 ha2 inst hinst
    obtain ⟨pre, post, hdir, hmap⟩ :=
      dirMap_split dir augName (fun a => { a with instances := decFirstAddr a.instances addr })
        a0 hfind
    rw [hmap] at ha2
    rcases List.mem_append.mp ha2 with hpre | hpost
    · exact hb a2 (by rw [hdir]; exact List.mem_append_left _ hpre) inst hinst
    · rcases List.mem_cons.mp hpost with heq | hpost2
      · subst heq
        simp only at hinst
        rcases decFirstAddr_elems a0.instances addr inst hinst with h2 | ⟨y, hy, hx⟩
        · exact hb a0 (dirFind?_mem dir augName a0 hfind) inst h2
        · have := hb a0 (dirFind?_mem dir augName a0 hfind) y hy
          subst hx
          simp only
          omega
      · exact hb a2
          (by rw [hdir]; exact List.mem_append_right _ (List.mem_cons_of_mem _ hpost2))
          inst hinst
  · exact hb

theorem findTok_mem_augToks (l : List (String × Nat)) (sid : String) (tok : Nat)
    (h : findTok l sid = some tok) : tok ∈ l.map (fun p => p.2) := by
  obtain ⟨pre, post, hsplit, _⟩ := findTok_split l sid tok h
  rw [hsplit]
  simp

theorem inv_response (s : LoopState) (addr sid augName payload : String)
    (decoded : Option AugmentationList) (hinv : Inv s) :
    Inv (doResponseStep s addr sid augName payload decoded) := by
  simp only [doResponseStep]
  have hnames : dirNames (respDecDir s.directory augName addr) = dirNames s.directory :=
    respDecDir_names s.directory augName addr
  have hbound := respDecDir_bound s.directory augName addr hinv.dirBound
  have hne2 : ∀ a ∈ respDecDir s.directory augName addr, a.name ≠ "" := by
    intro a ha
    have hname : a.name ∈ dirNames s.directory := by
      rw [← hnames]
      exact List.mem_map.mpr ⟨a, ha, rfl⟩
    rcases List.mem_map.mp hname with ⟨b, hb, hba⟩
    rw [← hba]
    exact hinv.dirNE b hb
  split
  · refine ⟨?_, ?_, ?_, ?_, ?_, ?_, ?_, ?_, ?_, ?_, ?_, ?_, ?_⟩
    · exact hinv.inboxLt
    · exact hinv.inboxFired
    · intro t ht e he n hn
      simp only
      rw [hnames]
      exact hinv.inboxOut t ht e he n hn
    · exact hinv.inboxNodup
    · exact hinv.inboxDisj
    · exact hinv.augLt
    · exact hinv.augFired
    · exact hinv.augNodup
    · exact hinv.firedLe
    · intro n hn
      simp only
      rw [hnames]
      exact hinv.snapSub n hn
    · exact hne2
    · exact hbound
    · exact hinv.noDeref
  · next tok hfind =>
    have htokaug : tok ∈ augToks s := findTok_mem_augToks s.augmenting sid tok hfind
    have htoklt : tok < s.entries.length := hinv.augLt tok htokaug
    split
    · next hget =>
      exact absurd hget (by rw [List.getElem?_eq_getElem htoklt]; simp)
    · next e hget =>
      have hfired : e.fired = [] := hinv.augFired tok htokaug e hget
      obtain ⟨pre, post, hsplit, hrem⟩ := findTok_split s.augmenting sid tok hfind
      have hmidtoks : augToks s = pre.map (fun p => p.2) ++ tok :: post.map (fun p => p.2) := by
        rw [augToks, hsplit]
        simp
      have hnodup2 := hinv.augNodup
      rw [hmidtoks, List.nodup_middle, List.nodup_cons] at hnodup2
      split
      · refine ⟨?_, ?_, ?_, ?_, ?_, ?_, ?_, ?_, ?_, ?_, ?_, ?_, ?_⟩
        · intro t ht
          simp only [List.length_set]
          exact hinv.inboxLt t ht
        · intro t ht e2 he2
          simp only at he2
          rw [List.getElem?_set_ne (by
            intro heq
            exact hinv.inboxDisj t ht (heq ▸ htokaug))] at he2
          exact hinv.inboxFired t ht e2 he2
        · intro t ht e2 he2 n hn
          simp only at he2 ⊢
          rw [hnames]
          rw [List.getElem?_set_ne (by
            intro heq
            exact hinv.inboxDisj t ht (heq ▸ htokaug))] at he2
          exact hinv.inboxOut t ht e2 he2 n hn
        · exact hinv.inboxNodup
        · intro t ht
          simp only [augToks, hrem]
          rw [List.map_append]
          intro hmem
          apply hinv.inboxDisj t ht
          rw [hmidtoks]
          rcases List.mem_append.mp hmem with h | h
          · exact List.mem_append_left _ h
          · exact List.mem_append_right _ (List.mem_cons_of_mem _ h)
        · intro t ht
          simp only [augToks, hrem] at ht
          rw [List.map_append] at ht
          simp only [List.length_set]
          apply hinv.augLt
          rw [hmidtoks]
          rcases List.mem_append.mp ht with h | h
          · exact List.mem_append_left _ h
          · exact List.mem_append_right _ (List.mem_cons_of_mem _ h)
        · intro t ht e2 he2
          simp only [augToks, hrem] at ht
          rw [List.map_append] at ht
          simp only at he2
          have htne : t ≠ tok := by
            intro heq
            apply hnodup2.1
            rw [← heq]
            exact ht
          rw [List.getElem?_set_ne (fun heq => htne heq.symm)] at he2
          apply hinv.augFired t _ e2 he2
          rw [hmidtoks]
          rcases List.mem_append.mp ht with h | h
          · exact List.mem_append_left _ h
          · exact List.mem_append_right _ (List.mem_cons_of_mem _ h)
        · simp only [augToks, hrem]
          rw [List.map_append]
          exact hnodup2.2
        · intro e2 he2
          simp only at he2
          rcases List.mem_or_eq_of_mem_set he2 with h | h
          · exact hinv.firedLe e2 h
          · subst h
            simp only [hfired]
            simp
        · intro n hn
          simp only
          rw [hnames]
          exact hinv.snapSub n hn
        · exact hne2
        · exact hbound
        · exact hinv.noDeref
      · refine ⟨?_, ?_, ?_, ?_, ?_, ?_, ?_, ?_, ?_, ?_, ?_, ?_, ?_⟩
        · intro t ht
          simp only [List.length_set]
          exact hinv.inboxLt t ht
        · intro t ht e2 he2
          simp only at he2
          rw [List.getElem?_set_ne (by
            intro heq
            exact hinv.inboxDisj t ht (heq ▸ htokaug))] at he2
          exact hinv.inboxFired t ht e2 he2
        · intro t ht e2 he2 n hn
          simp only at he2 ⊢
          rw [hnames]
          rw [List.getElem?_set_ne (by
            intro heq
            exact hinv.inboxDisj t ht (heq ▸ htokaug))] at he2
          exact hinv.inboxOut t ht e2 he2 n hn
        · exact hinv.inboxNodup
        · intro t ht
          simp only [augToks]
          exact hinv.inboxDisj t ht
        · intro t ht
          simp only [augToks] at ht
          simp only [List.length_set]
          exact hinv.augLt t ht
        · intro t ht e2 he2
          simp only [augToks] at ht
          simp only at he2
          by_cases htt : t = tok
          · subst htt
            rw [List.getElem?_set_self htoklt] at he2
            cases he2
            simp only [hfired]
          · rw [List.getElem?_set_ne (fun heq => htt heq.symm)] at he2
            exact hinv.augFired t ht e2 he2
        · simp only [augToks]
          exact hinv.augNodup
        · intro e2 he2
          simp only at he2
          rcases List.mem_or_eq_of_mem_set he2 with h | h
          · exact hinv.firedLe e2 h
          · subst h
            simp only [hfired]
            simp
        · intro n hn
          simp only
          rw [hnames]
          exact hinv.snapSub n hn
        · exact hne2
        · exact hbound
        · exact hinv.noDeref

end AugLoop


namespace AugLoop

theorem inv_set_idle (s : LoopState) (b : Bool) (h : Inv s) : Inv { s with idle := b } :=
  ⟨h.inboxLt, h.inboxFired, h.inboxOut, h.inboxNodup, h.inboxDisj, h.augLt,
   h.augFired, h.augNodup, h.firedLe, h.snapSub, h.dirNE, h.dirBound, h.noDeref⟩

theorem inv_expire (s : LoopState) (now : Nat) (hinv : Inv s) :
    Inv (checkExpiriesStep s now) := by
  rw [checkExpiriesStep]
  set L := s.augmenting.filter (entryExpired s.entries now) with hL
  set rest := s.augmenting.filter (fun p => ! entryExpired s.entries now p) with hrest
  have hLsub : ∀ p ∈ L, p ∈ s.augmenting := by
    intro p hp
    rw [hL] at hp
    exact (List.mem_filter.mp hp).1
  have hrestsub : ∀ p ∈ rest, p ∈ s.augmenting := by
    intro p hp
    rw [hrest] at hp
    exact (List.mem_filter.mp hp).1
  have haugmap : (augToks s).Nodup := hinv.augNodup
  rw [augToks] at haugmap
  have hLnodup : (L.map (fun p => p.2)).Nodup := by
    have hsl : L.Sublist s.augmenting := by
      rw [hL]
      exact List.filter_sublist _
    exact haugmap.sublist (hsl.map _)
  have hLfired : ∀ p ∈ L, ∀ e, s.entries[p.2]? = some e → e.fired = [] := by
    intro p hp e he
    exact hinv.augFired p.2 (List.mem_map.mpr ⟨p, hLsub p hp, rfl⟩) e he
  have hspec := fireFold_spec L s.entries hLnodup hLfired
  have hdisjL : ∀ t ∈ s.inbox, t ∉ L.map (fun p => p.2) := by
    intro t ht hmem
    rcases List.mem_map.mp hmem with ⟨p, hp, hpt⟩
    exact hinv.inboxDisj t ht (List.mem_map.mpr ⟨p, hLsub p hp, hpt⟩)
  have hrestdisj : ∀ t, t ∈ rest.map (fun p => p.2) → t ∉ L.map (fun p => p.2) := by
    intro t htr htl
    rcases List.mem_map.mp htr with ⟨q, hq, hqt⟩
    rcases List.mem_map.mp htl with ⟨p, hp, hpt⟩
    have hpq : p = q :=
      List.inj_on_of_nodup_map haugmap (hLsub p hp) (hrestsub q hq) (by rw [hpt, hqt])
    have hpexp : entryExpired s.entries now p = true := by
      rw [hL] at hp
      exact (List.mem_filter.mp hp).2
    have hqexp : (! entryExpired s.entries now q) = true := by
      rw [hrest] at hq
      exact (List.mem_filter.mp hq).2
    rw [← hpq, hpexp] at hqexp
    cases hqexp
  have hcore : Inv { s with
      augmenting := rest,
      entries := L.foldl (fun es p => fireTok es p.2) s.entries } := by
    refine ⟨?_, ?_, ?_, ?_, ?_, ?_, ?_, ?_, ?_, ?_, ?_, ?_, ?_⟩
    · intro t ht
      simp only [hspec.1]
      exact hinv.inboxLt t ht
    · intro t ht e he
      simp only at he
      rw [hspec.2.1 t (hdisjL t ht)] at he
      exact hinv.inboxFired t ht e he
    · intro t ht e he n hn
      simp only at he ⊢
      rw [hspec.2.1 t (hdisjL t ht)] at he
      exact hinv.inboxOut t ht e he n hn
    · exact hinv.inboxNodup
    · intro t ht hmem
      simp only [augToks] at hmem
      apply hinv.inboxDisj t ht
      rcases List.mem_map.mp hmem with ⟨p, hp, hpt⟩
      exact List.mem_map.mpr ⟨p, hrestsub p hp, hpt⟩
    · intro t ht
      simp only [augToks] at ht
      simp only [hspec.1]
      apply hinv.augLt
      rcases List.mem_map.mp ht with ⟨p, hp, hpt⟩
      exact List.mem_map.mpr ⟨p, hrestsub p hp, hpt⟩
    · intro t ht e he
      simp only [augToks] at ht
      simp only at he
      rw [hspec.2.1 t (hrestdisj t ht)] at he
      apply hinv.augFired t _ e he
      rcases List.mem_map.mp ht with ⟨p, hp, hpt⟩
      exact List.mem_map.mpr ⟨p, hrestsub p hp, hpt⟩
    · simp only [augToks]
      refine haugmap.sublist ?_
      refine List.Sublist.map _ ?_
      rw [hrest]
      exact List.filter_sublist _
    · intro e he
      simp only at he
      rcases List.mem_iff_getElem?.mp he with ⟨u, hu⟩
      obtain ⟨e0, he0, hd⟩ := hspec.2.2 u e hu
      rcases hd with rfl | ⟨hf0, he2⟩
      · exact hinv.firedLe e (List.mem_iff_getElem?.mpr ⟨u, he0⟩)
      · rw [he2]
        simp
    · exact hinv.snapSub
    · exact hinv.dirNE
    · exact hinv.dirBound
    · exact hinv.noDeref
  split
  · exact inv_set_idle _ true hcore
  · exact hcore

theorem inv_config (s : LoopState) (addr name : String) (mifRaw : Int)
    (hinv : Inv s) : Inv (doConfigStep s addr name mifRaw) := by
  rw [doConfigStep]
  by_cases hname : name = ""
  · rw [if_pos hname]
    exact hinv
  · rw [if_neg hname]
    show Inv { s with
      directory := configApply s.directory addr name (if mifRaw < 0 then 3000 else mifRaw),
      snapshot := snapshotOf
        (configApply s.directory addr name (if mifRaw < 0 then 3000 else mifRaw)) }
    set mif : Int := if mifRaw < 0 then 3000 else mifRaw with hmif
    have hmif0 : 0 ≤ mif := by
      rw [hmif]
      split <;> omega
    set dir1 := (doDisconnectionDir s.directory addr name).1 with hdir1
    set a := (dirFind? dir1 name).getD { name := name, instances := [] } with ha0
    have hca : configApply s.directory addr name mif =
        dirSet dir1 name { a with instances := a.instances ++ [⟨addr, mif, 0⟩] } := rfl
    rw [hca]
    set a2 : AugmentorInfo := { a with instances := a.instances ++ [⟨addr, mif, 0⟩] }
      with ha2
    set dir2 := dirSet dir1 name a2 with hdir2
    have hdir1elems : ∀ b ∈ dir1, ∃ c ∈ s.directory, b.name = c.name ∧
        (b = c ∨ b.instances = removeFirstAddr c.instances addr) := by
      intro b hb
      exact doDisc_elems s.directory addr name b hb
    have hdir1ne : ∀ b ∈ dir1, b.name ≠ "" := by
      intro b hb
      obtain ⟨c, hc, hbc, _⟩ := hdir1elems b hb
      rw [hbc]
      exact hinv.dirNE c hc
    have hdir1bound : ∀ b ∈ dir1, ∀ inst ∈ b.instances,
        inst.numInFlight ≤ inst.maxInFlight := by
      intro b hb inst hinst
      obtain ⟨c, hc, _, hor⟩ := hdir1elems b hb
      rcases hor with rfl | hinsts
      · exact hinv.dirBound b hc inst hinst
      · rw [hinsts] at hinst
        exact hinv.dirBound c hc inst (removeFirstAddr_subset c.instances addr inst hinst)
    have haname : a.name = name := by
      rw [ha0]
      rcases hfind : dirFind? dir1 name with _ | a0
      · rfl
      · exact dirFind?_name dir1 name a0 hfind
    have habound : ∀ inst ∈ a.instances, inst.numInFlight ≤ inst.maxInFlight := by
      rw [ha0]
      rcases hfind : dirFind? dir1 name with _ | a0
      · intro inst hinst
        simp at hinst
      · exact hdir1bound a0 (dirFind?_mem dir1 name a0 hfind)
    have ha2name : a2.name = name := by
      rw [ha2]
      exact haname
    have hmono : ∀ x ∈ dirNames s.directory, x ∈ dirNames dir2 := by
      intro x hx
      by_cases hxn : x = name
      · rw [hxn, hdir2]
        exact dirSet_mem_name name a2 ha2name dir1
      · rw [hdir2]
        apply dirSet_names_superset name a2 ha2name
        rw [hdir1]
        exact doDisc_names s.directory addr name hinv.dirNE x hx hxn
    have hdir2ne : ∀ b ∈ dir2, b.name ≠ "" := by
      intro b hb
      rcases dirSet_elems dir1 name a2 b hb with h | h
      · exact hdir1ne b h
      · rw [h, ha2name]
        exact hname
    have hdir2bound : ∀ b ∈ dir2, ∀ inst ∈ b.instances,
        inst.numInFlight ≤ inst.maxInFlight := by
      intro b hb inst hinst
      rcases dirSet_elems dir1 name a2 b hb with h | h
      · exact hdir1bound b h inst hinst
      · subst h
        rw [ha2] at hinst
        simp only at hinst
        rcases List.mem_append.mp hinst with h2 | h2
        · exact habound inst h2
        · rcases List.mem_singleton.mp h2 with rfl
          simp only
          omega
    refine ⟨?_, ?_, ?_, ?_, ?_, ?_, ?_, ?_, ?_, ?_, ?_, ?_, ?_⟩
    · exact hinv.inboxLt
    · exact hinv.inboxFired
    · intro t ht e he n hn
      simp only
      exact hmono n (hinv.inboxOut t ht e he n hn)
    · exact hinv.inboxNodup
    · exact hinv.inboxDisj
    · exact hinv.augLt
    · exact hinv.augFired
    · exact hinv.augNodup
    · exact hinv.firedLe
    · intro n hn
      simp only at hn ⊢
      rw [snapshotOf, mem_sortNames] at hn
      exact hn
    · exact hdir2ne
    · exact hdir2bound
    · exact hinv.noDeref

theorem inv_disconnect (s : LoopState) (addr : String) (hinv : Inv s) :
    Inv (doDisconnectionStep s addr) := by
  have hstep : doDisconnectionStep s addr = s := by
    rw [doDisconnectionStep, doDisc_noop s.directory addr hinv.dirNE]
    simp
  rw [hstep]
  exact hinv

theorem inv_init : Inv initState := by
  refine ⟨?_, ?_, ?_, ?_, ?_, ?_, ?_, ?_, ?_, ?_, ?_, ?_, ?_⟩ <;>
    simp [initState, augToks, dirNames]

theorem inv_step (s : LoopState) (a : Step) (hinv : Inv s) : Inv (step s a) := by
  cases a with
  | augment pg id t => exact inv_augment s pg id t hinv
  | drain => exact inv_drain s hinv
  | response addr sid n p d => exact inv_response s addr sid n p d hinv
  | expire now => exact inv_expire s now hinv
  | config addr n m => exact inv_config s addr n m hinv
  | disconnect addr => exact inv_disconnect s addr hinv

theorem inv_run : ∀ (tr : List Step) (s : LoopState), Inv s → Inv (run s tr) := by
  intro tr
  induction tr with
  | nil => intro s h; exact h
  | cons a tr2 ih =>
    intro s h
    rw [run]
    exact ih (step s a) (inv_step s a h)

theorem inv_reachable (tr : List Step) : Inv (run initState tr) :=
  inv_run tr initState inv_init

end AugLoop

namespace AugLoop

theorem removeId_sublist :
    ∀ (l : List (String × Nat)) (sid : String), (removeId l sid).Sublist l := by
  intro l
  induction l with
  | nil => intro sid; simp [removeId]
  | cons p rest ih =>
    intro sid
    rw [removeId]
    split
    · exact (List.sublist_cons_self p rest)
    · exact (ih sid).cons₂ p

theorem fireFold_get_ne (L : List (String × Nat)) :
    ∀ (es : List EntryRec) (u : Nat), u ∉ L.map (fun p => p.2) →
      (L.foldl (fun es2 p => fireTok es2 p.2) es)[u]? = es[u]? := by
  induction L with
  | nil => intro es u _; rfl
  | cons p L ih =>
    intro es u hu
    simp only [List.map_cons, List.mem_cons, not_or] at hu
    rw [List.foldl_cons, ih (fireTok es p.2) u hu.2]
    exact fireTok_get_ne es p.2 u hu.1

theorem fireFold_length (L : List (String × Nat)) :
    ∀ (es : List EntryRec),
      (L.foldl (fun es2 p => fireTok es2 p.2) es).length = es.length := by
  induction L with
  | nil => intro es; rfl
  | cons p L ih =>
    intro es
    rw [List.foldl_cons, ih (fireTok es p.2), fireTok_length]

theorem untouched_stable_step (s : LoopState) (a : Step) (tok : Nat)
    (hlt : tok < s.entries.length) (hnin : tok ∉ s.inbox) (hnaug : tok ∉ augToks s) :
    (step s a).entries[tok]? = s.entries[tok]?
    ∧ tok < (step s a).entries.length
    ∧ tok ∉ (step s a).inbox
    ∧ tok ∉ augToks (step s a) := by
  cases a with
  | augment pg id tmo =>
    simp only [step, augmentStep]
    by_cases hcase : (mergeOutstanding (neededAugmentors pg) s.snapshot).isEmpty
    · rw [if_pos hcase]
      refine ⟨entGet_append _ _ _ hlt, ?_, hnin, hnaug⟩
      simp only [List.length_append, List.length_cons, List.length_nil]
      omega
    · rw [if_neg hcase]
      refine ⟨entGet_append _ _ _ hlt, ?_, ?_, hnaug⟩
      · simp only [List.length_append, List.length_cons, List.length_nil]
        omega
      · intro hmem
        rcases List.mem_append.mp hmem with h | h
        · exact hnin h
        · rcases List.mem_singleton.mp h with rfl
          omega
  | drain =>
    simp only [step, doAugmentationStep]
    split
    · exact ⟨rfl, hlt, hnin, hnaug⟩
    · next tok0 rest hin =>
      have htok0 : tok ≠ tok0 := by
        intro heq
        apply hnin
        rw [hin, heq]
        exact List.mem_cons_self _ _
      have hninr : tok ∉ rest := by
        intro hmem
        apply hnin
        rw [hin]
        exact List.mem_cons_of_mem _ hmem
      split
      · exact ⟨rfl, hlt, hninr, hnaug⟩
      · next e hget =>
        split
        · exact ⟨rfl, hlt, hninr, hnaug⟩
        · refine ⟨rfl, hlt, hninr, ?_⟩
          simp only [augToks, List.map_append, List.map_cons, List.map_nil]
          intro hmem
          rcases List.mem_append.mp hmem with h | h
          · exact hnaug h
          · rcases List.mem_singleton.mp h with rfl
            exact htok0 rfl
  | response addr sid n p d =>
    simp only [step, doResponseStep]
    split
    · exact ⟨rfl, hlt, hnin, hnaug⟩
    · next tok2 hfind =>
      have htok2 : tok ≠ tok2 := by
        intro heq
        exact hnaug (heq ▸ findTok_mem_augToks s.augmenting sid tok2 hfind)
      split
      · exact ⟨rfl, hlt, hnin, hnaug⟩
      · next e hget =>
        split
        · refine ⟨?_, ?_, hnin, ?_⟩
          · simp only
            rw [List.getElem?_set_ne (fun heq => htok2 heq.symm)]
          · simp only [List.length_set]
            exact hlt
          · simp only [augToks]
            intro hmem
            apply hnaug
            rw [augToks]
            rcases List.mem_map.mp hmem with ⟨q, hq, hqt⟩
            exact List.mem_map.mpr ⟨q, (removeId_sublist s.augmenting sid).subset hq, hqt⟩
        · refine ⟨?_, ?_, hnin, ?_⟩
          · simp only
            rw [List.getElem?_set_ne (fun heq => htok2 heq.symm)]
          · simp only [List.length_set]
            exact hlt
          · simp only [augToks]
            exact hnaug
  | expire now =>
    simp only [step, checkExpiriesStep]
    set L := s.augmenting.filter (entryExpired s.entries now) with hL
    set rest := s.augmenting.filter (fun p => ! entryExpired s.entries now p) with hrest
    have hnotL : tok ∉ L.map (fun p => p.2) := by
      intro hmem
      apply hnaug
      rw [augToks]
      rcases List.mem_map.mp hmem with ⟨q, hq, hqt⟩
      rw [hL] at hq
      exact List.mem_map.mpr ⟨q, (List.mem_filter.mp hq).1, hqt⟩
    have hkey : tok ∉ rest.map (fun p => p.2) := by
      intro hmem
      apply hnaug
      rw [augToks]
      rcases List.mem_map.mp hmem with ⟨q, hq, hqt⟩
      rw [hrest] at hq
      exact List.mem_map.mpr ⟨q, (List.mem_filter.mp hq).1, hqt⟩
    have hget := fireFold_get_ne L s.entries tok hnotL
    have hlen := fireFold_length L s.entries
    split
    · refine ⟨hget, ?_, hnin, ?_⟩
      · rw [hlen]; exact hlt
      · simp only [augToks]
        exact hkey
    · refine ⟨hget, ?_, hnin, ?_⟩
      · rw [hlen]; exact hlt
      · simp only [augToks]
        exact hkey
  | config addr n m =>
    simp only [step, doConfigStep]
    split
    · exact ⟨rfl, hlt, hnin, hnaug⟩
    · exact ⟨rfl, hlt, hnin, hnaug⟩
  | disconnect addr =>
    simp only [step, doDisconnectionStep]
    split
    · exact ⟨rfl, hlt, hnin, hnaug⟩
    · exact ⟨rfl, hlt, hnin, hnaug⟩

end AugLoop

namespace AugLoop

theorem untouched_stable_run (tr : List Step) :
    ∀ (s : LoopState) (tok : Nat),
      tok < s.entries.length → tok ∉ s.inbox → tok ∉ augToks s →
      (run s tr).entries[tok]? = s.entries[tok]? := by
  induction tr with
  | nil => intro s tok _ _ _; rfl
  | cons a tr ih =>
    intro s tok hlt hnin hnaug
    obtain ⟨hg, hl, hi, ha⟩ := untouched_stable_step s a tok hlt hnin hnaug
    show (run (step s a) tr).entries[tok]? = _
    rw [ih (step s a) tok hl hi ha, hg]

/-- C10: along every handler trace from the initial state, the unguarded
`*augmentors[name]` lookup performed by `doAugmentation` for each outstanding
name never dereferences an absent (null) record: the `nullDeref` flag, raised
exactly in that error branch, stays false — the race window between the
snapshot read in `augment` and the inbox drain is unreachable. -/
theorem doAugmentation_lookup_never_null (tr : List Step) :
    (run initState tr).nullDeref = false :=
  (inv_reachable tr).noDeref

/-- C1: along every handler trace from the initial state, every entry fires
`onFinished` at most once — the exactly-once half of the claim fails, as the
separate counterexample shows a dispatched entry whose callback never
fires. -/
theorem onFinished_at_most_once (tr : List Step) :
    ∀ e ∈ (run initState tr).entries, e.fired.length ≤ 1 :=
  (inv_reachable tr).firedLe

theorem onFinished_at_most_once_witness :
    (⟨"1", [], [], 5, [[]]⟩ : EntryRec) ∈
        (run initState [.augment [] "1" 5]).entries
    ∧ (⟨"1", [], [], 5, [[]]⟩ : EntryRec).fired.length ≤ 1 :=
  ⟨by decide,
   onFinished_at_most_once [.augment [] "1" 5] ⟨"1", [], [], 5, [[]]⟩ (by decide)⟩

/-- C1 counterexample: after `c1Trace` the dispatcher is quiescent — empty
inbox, empty Deadline Index, `duplicateAuction` counted — yet the second
dispatched entry has never fired: `onFinished` is not invoked exactly once
for every auction dispatched via `augment`. -/
theorem onFinished_not_exactly_once :
    (run initState c1Trace).inbox = []
    ∧ (run initState c1Trace).augmenting = []
    ∧ (run initState c1Trace).duplicateAuction = 1
    ∧ (run initState c1Trace).entries.map (fun e => e.fired.length) = [1, 0] := by
  decide

/-- C2: the upper half of the claimed invariant holds along every trace —
`pickInstance` increments only an instance below its cap, so
`numInFlight ≤ maxInFlight` at rest — while the lower bound fails: the
separate counterexample drives `numInFlight` to `-1` through the unguarded
decrement of `doResponse`. -/
theorem numInFlight_upper_bound (tr : List Step) :
    ∀ a ∈ (run initState tr).directory, ∀ inst ∈ a.instances,
      inst.numInFlight ≤ inst.maxInFlight :=
  (inv_reachable tr).dirBound

theorem numInFlight_upper_bound_witness :
    (⟨"geo", [⟨"A", 10, 0⟩]⟩ : AugmentorInfo) ∈
        (run initState [.config "A" "geo" 10]).directory
    ∧ (⟨"A", 10, 0⟩ : AugmentorInstanceInfo) ∈
        [(⟨"A", 10, 0⟩ : AugmentorInstanceInfo)]
    ∧ (0 : Int) ≤ 10 :=
  ⟨by decide, by decide,
   numInFlight_upper_bound [.config "A" "geo" 10] ⟨"geo", [⟨"A", 10, 0⟩]⟩
     (by decide) ⟨"A", 10, 0⟩ (by decide)⟩

/-- C2 counterexample: a RESPONSE frame for an instance with no request in
flight leaves the directory instance at `numInFlight = -1`, a rest state
violating `0 ≤ numInFlight`. -/
theorem numInFlight_below_zero :
    (run initState c2Trace).directory = [⟨"geo", [⟨"A", 10, -1⟩]⟩]
    ∧ ¬ ((0 : Int) ≤ (-1 : Int)) := by
  decide

end AugLoop

namespace AugLoop

/-- C5: when `doAugmentation` drains an entry whose auction id is already in
the Deadline Index, the whole effect is `duplicateAuction + 1` and the drop of
the inbox token: the index, the directory and every other field are left
unchanged, and — as long as the dropped token is referenced nowhere else —
the dropped entry stays frozen (in particular its callback log) along every
continuation of the trace, while the first entry behaves normally. -/
theorem doAugmentation_duplicate_drop (s : LoopState) (tok : Nat) (rest : List Nat)
    (e : EntryRec) (hin : s.inbox = tok :: rest) (he : s.entries[tok]? = some e)
    (hdup : hasId s.augmenting e.infoId = true)
    (hnotin : tok ∉ rest) (hnotaug : tok ∉ augToks s) :
    doAugmentationStep s
        = { s with inbox := rest, duplicateAuction := s.duplicateAuction + 1 }
    ∧ ∀ tr, (run (doAugmentationStep s) tr).entries[tok]? = some e := by
  have hstep : doAugmentationStep s
      = { s with inbox := rest, duplicateAuction := s.duplicateAuction + 1 } := by
    simp only [doAugmentationStep, hin, he, hdup, if_true]
  refine ⟨hstep, ?_⟩
  intro tr
  have hlt : tok < s.entries.length := (List.getElem?_eq_some.mp he).1
  rw [hstep,
    untouched_stable_run tr
      { s with inbox := rest, duplicateAuction := s.duplicateAuction + 1 }
      tok hlt hnotin hnotaug]
  exact he

theorem doAugmentation_duplicate_drop_witness :
    c5State.inbox = [1]
    ∧ hasId c5State.augmenting "1" = true
    ∧ doAugmentationStep c5State
        = { c5State with
            inbox := [],
            duplicateAuction := c5State.duplicateAuction + 1 }
    ∧ (run (doAugmentationStep c5State) [.expire 10]).entries[1]?
        = some ⟨"1", [], ["geo"], 5, []⟩
    ∧ (run (doAugmentationStep c5State) [.expire 10]).entries.map
        (fun e => e.fired.length) = [1, 0] :=
  ⟨by decide, by decide,
   (doAugmentation_duplicate_drop c5State 1 [] ⟨"1", [], ["geo"], 5, []⟩
      (by decide) (by decide) (by decide) (by decide) (by decide)).1,
   (doAugmentation_duplicate_drop c5State 1 [] ⟨"1", [], ["geo"], 5, []⟩
      (by decide) (by decide) (by decide) (by decide) (by decide)).2 [.expire 10],
   by decide⟩

/-- C6: the frame-size check of `doConfig` accepts four and five elements, but
the optional `maxInFlight` is read from `message[5]` — one past the end of a
five-element frame, an out-of-bounds `operator[]` embedded as an error — not
from the fifth element (index 4) the spec pins; the absent-field default of
3000 is confirmed on the four-element frame, and a spec-faithful read of
index 4 would have seen the supplied value. -/
theorem doConfig_maxinflight_index :
    doConfigParse ["workerA", "CONFIG", "1.0", "geo", "100"]
        = .error "out-of-bounds read of message at index 5"
    ∧ doConfigParse ["workerA", "CONFIG", "1.0", "geo"] = .ok ("workerA", "geo", 3000)
    ∧ specConfigMaxInFlight ["workerA", "CONFIG", "1.0", "geo", "100"] = some 100 :=
  ⟨rfl, rfl, rfl⟩

/-- C7: the queue-driven `doDisconnection(addr)` never removes anything — the
per-record loop skips every record whose *name* is non-empty (the source
tests `augmentor.name.empty()` instead of the `aug` filter argument), so a
directory instance whose address matches is kept and the whole step is the
identity; only the explicitly named form `doDisconnection(addr, name)`
removes the instance and erases the emptied augmentor as the claim
describes. -/
theorem doDisconnection_queue_noop :
    doDisconnectionDir exDirGeo "workerA" "" = (exDirGeo, false)
    ∧ doDisconnectionStep { initState with directory := exDirGeo, snapshot := ["geo"] }
        "workerA"
        = { initState with directory := exDirGeo, snapshot := ["geo"] }
    ∧ doDisconnectionDir exDirGeo "workerA" "geo" = ([], true) := by
  refine ⟨by decide, by decide, by decide⟩

end AugLoop

namespace AugLoop

/-- C8: error containment of `doResponse` — a payload that is the literal
string "null" is processed exactly like the empty payload; a payload that
fails JSON decoding produces the very same state as the empty payload except
for the `responseParsingExceptions` count; and whatever the frame carried, an
entry only ever changes by in-place update in which the `onFinished` log, if
extended at all, receives the entry's own current augmentation map — no
parsing or transport error is surfaced through the callback. -/
theorem doResponse_error_handling (s : LoopState) (addr sid augName payload : String)
    (decoded : Option AugmentationList)
    (hp1 : payload ≠ "") (hp2 : payload ≠ "null") :
    doResponseStep s addr sid augName "null" decoded
        = doResponseStep s addr sid augName "" decoded
    ∧ doResponseStep s addr sid augName payload none
        = { doResponseStep s addr sid augName "" none with
            parseExceptions := s.parseExceptions ++ [augName] }
    ∧ (∀ (tok : Nat) (e2 : EntryRec),
        (doResponseStep s addr sid augName payload decoded).entries[tok]? = some e2 →
        s.entries[tok]? = some e2
        ∨ ∃ e : EntryRec, s.entries[tok]? = some e
            ∧ (e2.fired = e.fired ∨ e2.fired = e.fired ++ [e2.augs])) := by
  have hor : ¬ (payload = "" ∨ payload = "null") := by
    intro h
    rcases h with h | h
    · exact hp1 h
    · exact hp2 h
  refine ⟨rfl, ?_, ?_⟩
  · have hA : respList payload none s.parseExceptions augName
        = ([], s.parseExceptions ++ [augName]) := by
      rw [respList, if_neg hor]
    have hB : respList "" none s.parseExceptions augName = ([], s.parseExceptions) := rfl
    rcases hf : findTok s.augmenting sid with _ | tok2
    · simp only [doResponseStep, hA, hB, hf]
    · rcases hg : s.entries[tok2]? with _ | e
      · simp only [doResponseStep, hA, hB, hf, hg]
      · simp only [doResponseStep, hA, hB, hf, hg]
        split
        · rfl
        · rfl
  · intro tok e2 he2
    simp only [doResponseStep] at he2
    rcases hf : findTok s.augmenting sid with _ | tok2
    · simp only [hf] at he2
      exact Or.inl he2
    · simp only [hf] at he2
      rcases hg : s.entries[tok2]? with _ | e
      · simp only [hg] at he2
        exact Or.inl he2
      · simp only [hg] at he2
        have htoklt : tok2 < s.entries.length := (List.getElem?_eq_some.mp hg).1
        by_cases hie : (eraseName e.outstanding augName).isEmpty = true
        · rw [if_pos hie] at he2
          by_cases htk : tok = tok2
          · subst htk
            simp only [List.getElem?_set_self htoklt, Option.some.injEq] at he2
            refine Or.inr ⟨e, hg, Or.inr ?_⟩
            rw [← he2]
          · simp only [List.getElem?_set_ne (fun heq => htk heq.symm)] at he2
            exact Or.inl he2
        · rw [if_neg hie] at he2
          by_cases htk : tok = tok2
          · subst htk
            simp only [List.getElem?_set_self htoklt, Option.some.injEq] at he2
            refine Or.inr ⟨e, hg, Or.inl ?_⟩
            rw [← he2]
          · simp only [List.getElem?_set_ne (fun heq => htk heq.symm)] at he2
            exact Or.inl he2

theorem doResponse_error_handling_witness :
    ("bad" : String) ≠ ""
    ∧ doResponseStep c5State "A" "1" "geo" "null" none
        = doResponseStep c5State "A" "1" "geo" "" none
    ∧ (doResponseStep c5State "A" "1" "geo" "bad" none).parseExceptions = ["geo"]
    ∧ (doResponseStep c5State "A" "1" "geo" "bad" none).entries.map
        (fun e => e.fired.length) = [1, 0] :=
  ⟨by decide,
   (doResponse_error_handling c5State "A" "1" "geo" "bad" none
      (by decide) (by decide)).1,
   by decide, by decide⟩

end AugLoop
